import Mathlib

/-!
Verification development for the phyTreeViz `TreeViz` core
(`src/phytreeviz/treeviz.py`).

The Python code manipulates Bio.Phylo tree objects.  We embed the tree
value shallowly: a clade is a name (`Option String`, `None` allowed), a
branch length (`Option ℚ`; Python floats are modelled by exact rationals)
and an ordered list of child clades.  A `Tree` is identified with its
root clade.

The Bio.Phylo operations used by treeviz.py (`find_clades`,
`get_terminals`, `get_nonterminals`, `depths`, `get_path`, `distance`,
`common_ancestor`) are embedded below following the reference
implementation in Bio.Phylo.BaseTree:

* `find_clades` with its default `order="preorder"` is a depth-first
  preorder traversal (self first, then children left to right);
  `order="postorder"` visits children first.
* `depths(unit_branch_lengths)` walks preorder accumulating either the
  child branch length (`or 0`, i.e. missing treated as 0) or the
  constant 1; the root starts at `root.branch_length or 0`.
* `get_path(target)` returns the clades strictly between the root and
  the target, target included, root excluded; the search is a DFS that
  stops at the first clade matching the target.
* `distance(target)` sums the branch lengths along `get_path(target)`,
  missing branch lengths contributing 0.
* `common_ancestor(targets)` intersects the root→target paths level by
  level and returns the deepest level on which all paths agree, the
  root if there is none.

Python `str(node.name)` is modelled by `name_str` (`"None"` for a
missing name); all theorems about name-keyed computations assume every
node is named and names are globally unique, which is exactly the state
of the tree after `_set_uniq_innode_name` and `_check_node_name_dup`
have run in `TreeViz.__init__`.
-/

/-- A Bio.Phylo clade: optional name, optional branch length, ordered
children.  A tree is its root clade. -/
inductive PTree where
  | node (name : Option String) (branch_length : Option ℚ) (clades : List PTree)

namespace PTree

/-- `clade.name` -/
def name : PTree → Option String
  | .node n _ _ => n

/-- `clade.branch_length` -/
def branch_length : PTree → Option ℚ
  | .node _ b _ => b

/-- `clade.clades` (ordered children) -/
def clades : PTree → List PTree
  | .node _ _ cs => cs

/-- `clade.is_terminal()` : no children -/
def is_terminal (t : PTree) : Bool := t.clades.isEmpty

/-- Python `str(node.name)` (`str(None) = "None"`). -/
def name_str (t : PTree) : String := t.name.getD "None"

theorem sizeOf_lt_of_mem {c : PTree} {n : Option String} {b : Option ℚ} {cs : List PTree}
    (h : c ∈ cs) : sizeOf c < sizeOf (PTree.node n b cs) := by
  have := List.sizeOf_lt_of_mem h
  simp only [PTree.node.sizeOf_spec]
  omega

/-- Structural induction over clades: to prove `P t` it is enough to
prove `P` at a node assuming it for all children. -/
theorem inductionOn {P : PTree → Prop}
    (h : ∀ n b cs, (∀ c ∈ cs, P c) → P (.node n b cs)) : ∀ t, P t
  | .node n b cs => h n b cs (fun c hc => inductionOn h c)
termination_by t => sizeOf t
decreasing_by exact sizeOf_lt_of_mem hc

/-- `tree.find_clades()` with the Bio.Phylo default `order="preorder"`:
the clade itself, then the preorders of its children left to right. -/
def find_clades : PTree → List PTree
  | .node n b cs => .node n b cs :: (cs.attach.map (fun c => find_clades c.1)).flatten
termination_by t => sizeOf t
decreasing_by exact sizeOf_lt_of_mem c.2

theorem find_clades_def (n : Option String) (b : Option ℚ) (cs : List PTree) :
    find_clades (.node n b cs) = .node n b cs :: (cs.map find_clades).flatten := by
  rw [find_clades]
  congr 1
  rw [List.map_attach]
  simp

/-- `tree.find_clades(order="postorder")`: children first, then the clade. -/
def find_clades_postorder : PTree → List PTree
  | .node n b cs => (cs.attach.map (fun c => find_clades_postorder c.1)).flatten ++ [.node n b cs]
termination_by t => sizeOf t
decreasing_by exact sizeOf_lt_of_mem c.2

theorem find_clades_postorder_def (n : Option String) (b : Option ℚ) (cs : List PTree) :
    find_clades_postorder (.node n b cs)
      = (cs.map find_clades_postorder).flatten ++ [.node n b cs] := by
  rw [find_clades_postorder]
  congr 2
  rw [List.map_attach]
  simp

/-- `tree.get_terminals()` : preorder leaves. -/
def get_terminals (t : PTree) : List PTree := t.find_clades.filter is_terminal

/-- `tree.get_nonterminals()` : preorder internal nodes. -/
def get_nonterminals (t : PTree) : List PTree :=
  t.find_clades.filter (fun c => !c.is_terminal)

/-- `tree.get_nonterminals("postorder")` : postorder internal nodes. -/
def get_nonterminals_postorder (t : PTree) : List PTree :=
  t.find_clades_postorder.filter (fun c => !c.is_terminal)

/-- `tree.count_terminals()` -/
def count_terminals (t : PTree) : Nat := t.get_terminals.length

/-- The `str(·.name)` of every clade, preorder (this is the key set of
every name-indexed dict built by treeviz.py). -/
def all_names (t : PTree) : List String := t.find_clades.map name_str

/-- Every clade of the tree carries an explicit (non-`None`) name. -/
def AllNamed (t : PTree) : Prop := ∀ c ∈ t.find_clades, c.name ≠ none

/-- Node names are globally unique (the invariant established by
`_check_node_name_dup`). -/
def UniqNames (t : PTree) : Prop := t.all_names.Nodup

theorem mem_find_clades_self (t : PTree) : t ∈ t.find_clades := by
  cases t with
  | node n b cs => rw [find_clades_def]; exact List.mem_cons_self _ _

theorem mem_find_clades_of_child {t c : PTree} (hc : c ∈ t.clades) {x : PTree}
    (hx : x ∈ c.find_clades) : x ∈ t.find_clades := by
  cases t with
  | node n b cs =>
    rw [find_clades_def]
    refine List.mem_cons_of_mem _ (List.mem_flatten.2 ⟨c.find_clades, ?_, hx⟩)
    exact List.mem_map_of_mem _ hc

theorem children_mem_find_clades {t m c : PTree} (hm : m ∈ t.find_clades)
    (hc : c ∈ m.clades) : c ∈ t.find_clades := by
  induction t using inductionOn with
  | h n b cs ih =>
    rw [find_clades_def] at hm ⊢
    rcases List.mem_cons.1 hm with rfl | hm
    · refine List.mem_cons_of_mem _ (List.mem_flatten.2 ⟨c.find_clades, ?_, mem_find_clades_self c⟩)
      exact List.mem_map_of_mem _ hc
    · rcases List.mem_flatten.1 hm with ⟨l, hl, hml⟩
      rcases List.mem_map.1 hl with ⟨c', hc', rfl⟩
      exact List.mem_cons_of_mem _ (List.mem_flatten.2
        ⟨c'.find_clades, List.mem_map_of_mem _ hc', ih c' hc' hml⟩)

end PTree

namespace PTree

theorem sizeOf_lt_of_mem_clades {c t : PTree} (h : c ∈ t.clades) : sizeOf c < sizeOf t := by
  cases t with
  | node n b cs => exact sizeOf_lt_of_mem h

theorem findSome?_attach {α β : Type _} (l : List α) (f : α → Option β) :
    l.attach.findSome? (fun c => f c.1) = l.findSome? f := by
  induction l with
  | nil => rfl
  | cons a l ih =>
    rw [List.attach_cons, List.findSome?_cons, List.findSome?_cons]
    cases f a with
    | none =>
      simp only []
      rw [← ih, List.findSome?_map]
      rfl
    | some b => rfl

/-- The DFS of Bio.Phylo `check_in_path` (used by `get_path`): the chain
of clades from `t` down to the first clade whose `str(name)` equals the
target, both endpoints included; `none` when no clade matches.  The DFS
tries children left to right and stops at the first match. -/
def find_chain (target : String) (t : PTree) : Option (List PTree) :=
  if t.name_str = target then some [t]
  else (t.clades.attach.findSome? (fun c => find_chain target c.1)).map (t :: ·)
termination_by sizeOf t
decreasing_by exact sizeOf_lt_of_mem_clades c.2

theorem find_chain_def (target : String) (n : Option String) (b : Option ℚ) (cs : List PTree) :
    find_chain target (.node n b cs)
      = if name_str (.node n b cs) = target then some [.node n b cs]
        else (cs.findSome? (find_chain target)).map ((PTree.node n b cs) :: ·) := by
  rw [find_chain, findSome?_attach]
  rfl

/-- `tree.get_path(target)` : clades from a child of the root down to
the target (target included, root excluded); `None` when absent.
Matches Bio.Phylo: the full DFS chain with the root dropped. -/
def get_path (t : PTree) (target : String) : Option (List PTree) :=
  (find_chain target t).map List.tail

/-- `next(tree.find_clades(target))` : the first preorder clade whose
name matches, i.e. the endpoint of the DFS chain. -/
def find_first (t : PTree) (target : String) : Option PTree :=
  (find_chain target t).bind List.getLast?

/-- `tree.distance(target)` : the sum of branch lengths along
`get_path(target)`, a missing branch length contributing 0. -/
def distance (t : PTree) (target : String) : ℚ :=
  (((get_path t target).getD []).map (fun c => c.branch_length.getD 0)).sum

/-- Accumulating pass of Bio.Phylo `Tree.depths`: record `(str(name),
depth)` preorder, a child adding 1 in unit mode and `branch_length or 0`
otherwise. -/
def depth_pairs_from (unit : Bool) (d : ℚ) (t : PTree) : List (String × ℚ) :=
  (t.name_str, d) :: (t.clades.attach.map (fun c =>
    depth_pairs_from unit (d + (if unit then 1 else c.1.branch_length.getD 0)) c.1)).flatten
termination_by sizeOf t
decreasing_by exact sizeOf_lt_of_mem_clades c.2

theorem depth_pairs_from_def (unit : Bool) (d : ℚ) (n : Option String) (b : Option ℚ)
    (cs : List PTree) :
    depth_pairs_from unit d (.node n b cs)
      = (name_str (.node n b cs), d) :: (cs.map (fun c =>
        depth_pairs_from unit (d + (if unit then 1 else c.branch_length.getD 0)) c)).flatten := by
  rw [depth_pairs_from]
  congr 1
  rw [List.map_attach]
  simp
  rfl

/-- `{str(n.name): float(d) for n, d in tree.depths(unit).items()}` :
name/depth pairs in preorder insertion order, the root starting at
`root.branch_length or 0`. -/
def depth_pairs (unit : Bool) (t : PTree) : List (String × ℚ) :=
  depth_pairs_from unit (t.branch_length.getD 0) t

/-- Python `max` over a nonempty list of rationals (`[]` unreachable). -/
def list_max : List ℚ → ℚ
  | [] => 0
  | x :: xs => xs.foldl max x

/-- `max(tree.depths().values())` — the real-branch-length max depth
used by `TreeViz.__init__` and the `max_tree_depth` property. -/
def max_tree_depth (t : PTree) : ℚ := list_max ((depth_pairs false t).map Prod.snd)

end PTree

namespace PTree

theorem exists_of_findSome?_eq_some {α β : Type _} {l : List α} {f : α → Option β} {b : β}
    (h : l.findSome? f = some b) : ∃ a ∈ l, f a = some b := by
  induction l with
  | nil => simp [List.findSome?_nil] at h
  | cons a l ih =>
    rw [List.findSome?_cons] at h
    cases hfa : f a with
    | none => rw [hfa] at h; rcases ih h with ⟨x, hx, hfx⟩; exact ⟨x, List.mem_cons_of_mem _ hx, hfx⟩
    | some c => rw [hfa] at h; exact ⟨a, List.mem_cons_self _ _, by rw [hfa]; exact h⟩

theorem findSome?_isSome_of_mem {α β : Type _} {l : List α} {f : α → Option β} {a : α}
    (ha : a ∈ l) (hs : (f a).isSome) : (l.findSome? f).isSome := by
  induction l with
  | nil => simp at ha
  | cons x l ih =>
    rw [List.findSome?_cons]
    cases hfx : f x with
    | none =>
      rcases List.mem_cons.1 ha with rfl | ha
      · rw [hfx] at hs; simp at hs
      · exact ih ha
    | some c => simp

theorem all_names_def (n : Option String) (b : Option ℚ) (cs : List PTree) :
    all_names (.node n b cs)
      = name_str (.node n b cs) :: (cs.map all_names).flatten := by
  unfold all_names
  rw [find_clades_def]
  simp only [List.map_cons, List.map_flatten, List.map_map]
  rfl

/-- Everything at once about a successful DFS chain: it starts at the
root, ends at a clade named `target`, consecutive elements are
parent/child, and it is a sublist of the preorder traversal. -/
theorem find_chain_spec {target : String} {t : PTree} {ch : List PTree}
    (h : find_chain target t = some ch) :
    ch.head? = some t ∧ (∃ lst, ch.getLast? = some lst ∧ lst.name_str = target)
      ∧ List.Chain' (fun a b => b ∈ a.clades) ch ∧ List.Sublist ch t.find_clades := by
  induction t using inductionOn generalizing ch with
  | h n b cs ih =>
    rw [find_chain_def] at h
    by_cases hm : name_str (.node n b cs) = target
    · rw [if_pos hm] at h
      cases h
      refine ⟨rfl, ⟨_, rfl, hm⟩, List.chain'_singleton _, ?_⟩
      rw [find_clades_def]
      exact (List.nil_sublist _).cons₂ _
    · rw [if_neg hm] at h
      obtain ⟨p, hp, rfl⟩ := Option.map_eq_some'.1 h
      obtain ⟨c, hc, hcp⟩ := exists_of_findSome?_eq_some hp
      obtain ⟨hhead, ⟨lst, hlast, hname⟩, hchain, hsub⟩ := ih c hc hcp
      obtain ⟨p', rfl⟩ : ∃ p', p = c :: p' := by
        cases p with
        | nil => simp at hhead
        | cons x p' => cases hhead; exact ⟨p', rfl⟩
      refine ⟨rfl, ⟨lst, ?_, hname⟩, ?_, ?_⟩
      · rwa [List.getLast?_cons_cons]
      · exact List.chain'_cons'.2 ⟨fun y hy => by cases hy; exact hc, hchain⟩
      · rw [find_clades_def]
        refine List.Sublist.cons₂ _ (hsub.trans (List.sublist_flatten_of_mem ?_))
        exact List.mem_map_of_mem _ hc

theorem find_chain_isSome_iff {target : String} {t : PTree} :
    (find_chain target t).isSome ↔ target ∈ t.all_names := by
  induction t using inductionOn with
  | h n b cs ih =>
    rw [find_chain_def, all_names_def]
    by_cases hm : name_str (.node n b cs) = target
    · simp [hm]
    · rw [if_neg hm]
      constructor
      · intro h
        obtain ⟨ch, hch⟩ := Option.isSome_iff_exists.1 h
        obtain ⟨p, hp, -⟩ := Option.map_eq_some'.1 hch
        obtain ⟨c, hc, hcp⟩ := exists_of_findSome?_eq_some hp
        have : target ∈ c.all_names := (ih c hc).1 (by rw [hcp]; rfl)
        exact List.mem_cons_of_mem _ (List.mem_flatten.2 ⟨c.all_names, List.mem_map_of_mem _ hc, this⟩)
      · intro h
        rcases List.mem_cons.1 h with h | h
        · exact absurd h.symm hm
        · obtain ⟨l, hl, hml⟩ := List.mem_flatten.1 h
          obtain ⟨c, hc, rfl⟩ := List.mem_map.1 hl
          have := findSome?_isSome_of_mem hc ((ih c hc).2 hml)
          exact Option.isSome_map' .. |>.symm ▸ (by simpa using this)

theorem mem_of_getLast? {α : Type _} {l : List α} {a : α} (h : l.getLast? = some a) : a ∈ l := by
  cases l with
  | nil => simp at h
  | cons x l =>
    have hne : x :: l ≠ [] := by simp
    rw [List.getLast?_eq_getLast _ hne] at h
    cases h
    exact List.getLast_mem hne

theorem find_first_mem {t : PTree} {target : String} {x : PTree}
    (h : find_first t target = some x) :
    x ∈ t.find_clades ∧ x.name_str = target := by
  obtain ⟨ch, hch, hlast⟩ := Option.bind_eq_some.1 h
  obtain ⟨-, ⟨lst, hl, hname⟩, -, hsub⟩ := find_chain_spec hch
  rw [hl] at hlast
  cases hlast
  exact ⟨hsub.subset (mem_of_getLast? hl), hname⟩

theorem name_str_inj {t : PTree} (hu : UniqNames t) {x y : PTree}
    (hx : x ∈ t.find_clades) (hy : y ∈ t.find_clades)
    (hxy : x.name_str = y.name_str) : x = y :=
  List.inj_on_of_nodup_map hu hx hy hxy

theorem find_first_eq {t : PTree} (hu : UniqNames t) {x : PTree}
    (hx : x ∈ t.find_clades) : find_first t x.name_str = some x := by
  have hsome : (find_chain x.name_str t).isSome :=
    find_chain_isSome_iff.2 (List.mem_map_of_mem _ hx)
  obtain ⟨ch, hch⟩ := Option.isSome_iff_exists.1 hsome
  obtain ⟨-, ⟨lst, hl, hname⟩, -, hsub⟩ := find_chain_spec hch
  have : lst = x := name_str_inj hu (hsub.subset (mem_of_getLast? hl)) hx hname
  unfold find_first
  rw [hch]
  simpa [this] using hl

end PTree

namespace PTree

mutual

/-- `_set_uniq_innode_name`, recursive worker: walk the clade preorder;
every internal (non-terminal) clade consumes one index `k` (matching
`enumerate(tree.get_nonterminals(), 1)`, whose order is preorder), and an
internal clade whose name is `None` is renamed `N_<k>`; assigned names
are collected in order.  Returns (new clade, next index, assigned names). -/
def set_uniq_aux : PTree → Nat → PTree × Nat × List String
  | .node n b cs, k =>
    if cs.isEmpty then (.node n b cs, k, [])
    else
      let uniq_name := "N_" ++ toString k
      let renamed : Option String × List String :=
        match n with
        | none => (some uniq_name, [uniq_name])
        | some s => (some s, [])
      let rest := set_uniq_list cs (k + 1)
      (.node renamed.1 b rest.1, rest.2.1, renamed.2 ++ rest.2.2)
termination_by t => sizeOf t

/-- Worker of `set_uniq_aux` over a list of sibling clades, threading the
index left to right. -/
def set_uniq_list : List PTree → Nat → List PTree × Nat × List String
  | [], k => ([], k, [])
  | c :: cs, k =>
    let r1 := set_uniq_aux c k
    let r2 := set_uniq_list cs r1.2.1
    (r1.1 :: r2.1, r2.2.1, r1.2.2 ++ r2.2.2)
termination_by cs => sizeOf cs

end

/-- `_set_uniq_innode_name(tree)` : returns the renamed tree and the list
of auto-assigned internal node names (`N_1`, `N_2`, ...). -/
def set_uniq_innode_name (t : PTree) : PTree × List String :=
  let r := set_uniq_aux t 1
  (r.1, r.2.2)

/-- First-occurrence key order of `collections.Counter` over a list. -/
def counter_keys : List String → List String
  | [] => []
  | x :: xs => x :: counter_keys (xs.filter (fun y => y ≠ x))
termination_by l => l.length
decreasing_by
  have := List.length_filter_le (fun y => y ≠ x) xs
  simp only [List.length_cons]
  omega

/-- `_check_node_name_dup` : the `(node_name, count)` pairs with
`count > 1` enumerated by the raised error message, in `Counter`
(first-occurrence) order; the check raises iff this list is nonempty. -/
def check_node_name_dup (t : PTree) : List (String × Nat) :=
  ((counter_keys t.all_names).map (fun nm => (nm, t.all_names.count nm))).filter
    (fun p => 1 < p.2)

/-- Stable insertion step of `sorted(..., reverse=True)`: `x` goes after
every entry whose value is ≥ its value. -/
def insert_desc (x : String × ℚ) : List (String × ℚ) → List (String × ℚ)
  | [] => [x]
  | y :: ys => if x.2 ≤ y.2 then y :: insert_desc x ys else x :: y :: ys

/-- Python `sorted(name2depth.items(), key=value, reverse=True)` :
stable descending sort by depth. -/
def sorted_desc (l : List (String × ℚ)) : List (String × ℚ) :=
  l.foldl (fun acc x => insert_desc x acc) []

/-- The leaf-processing loop of `_to_ultrametric_tree`, lines 1079-1100:
iterate over the depth-sorted `(name, depth)` pairs; skip non-terminals;
a leaf at the maximum depth has every clade on its root→leaf path set to
branch length 1; any other leaf divides `max_tree_depth - bl_sum` evenly
over the path clades that still lack a branch length.  Branch lengths
live in a name-indexed map (names are unique).  `none` models the error
cases: a name that no clade carries (`StopIteration`), a missing path
(`ValueError`), and a zero divisor (`ZeroDivisionError`). -/
def ultra_loop (t0 : PTree) (maxD : ℚ) :
    List (String × ℚ) → (String → Option ℚ) → Option (String → Option ℚ)
  | [], bl => some bl
  | (nm, depth) :: rest, bl =>
    match find_first t0 nm with
    | none => none
    | some nd =>
      if nd.is_terminal then
        match get_path t0 nm with
        | none => none
        | some path =>
          let pnames := path.map name_str
          if depth = maxD then
            ultra_loop t0 maxD rest (fun x => if x ∈ pnames then some 1 else bl x)
          else
            let bl_sum : ℚ := (pnames.map (fun x => (bl x).getD 0)).sum
            let bl_cnt : Nat := (pnames.filter (fun x => (bl x).isSome)).length
            if pnames.length = bl_cnt then none
            else
              let other := (maxD - bl_sum) / ((pnames.length : ℚ) - (bl_cnt : ℚ))
              ultra_loop t0 maxD rest
                (fun x => if x ∈ pnames ∧ bl x = none then some other else bl x)
      else ultra_loop t0 maxD rest bl

/-- Write a name-indexed branch-length map back into the tree (the
functional counterpart of the in-place mutations along paths; names are
unique so name indexing is faithful). -/
def apply_bl (blmap : String → Option ℚ) : PTree → PTree
  | .node n b cs => .node n (blmap ((n).getD "None")) (cs.attach.map (fun c => apply_bl blmap c.1))
termination_by t => sizeOf t
decreasing_by exact sizeOf_lt_of_mem_clades c.2

theorem apply_bl_def (blmap : String → Option ℚ) (n : Option String) (b : Option ℚ)
    (cs : List PTree) :
    apply_bl blmap (.node n b cs)
      = .node n (blmap (name_str (.node n b cs))) (cs.map (apply_bl blmap)) := by
  rw [apply_bl]
  congr 1
  rw [List.map_attach]
  simp

/-- `_to_ultrametric_tree` : unit-branch depths of every clade are taken
(preorder), stably sorted descending; all branch lengths are cleared and
the root's set to 0 (the initial map below); then the leaf loop runs and
the resulting branch lengths are written back. -/
def to_ultrametric_tree (t : PTree) : Option PTree :=
  let name2depth := sorted_desc (depth_pairs true t)
  let maxD := list_max (name2depth.map Prod.snd)
  match ultra_loop t maxD name2depth (fun x => if x = t.name_str then some 0 else none) with
  | none => none
  | some blmap => some (apply_bl blmap t)

/-- The distinguishable error states of `TreeViz` (all raised as
`ValueError`/`ZeroDivisionError` in Python; the constructors record the
data enumerated in the corresponding message). -/
inductive VizErr where
  | duplicate_names (dups : List (String × Nat))
  | node_not_found (missing : List String) (available : List String)
  | invalid_option (param value : String)
  | zero_division
  | ax_not_ready

/-- The tree-building part of `TreeViz.__init__` (lines 73-81): assign
unique internal names, fail on duplicate names, then normalize to an
ultrametric tree when `ignore_branch_length` is set or the (real
branch length) max tree depth is 0. -/
def treeviz_init (tree_data : PTree) (ignore_branch_length : Bool) :
    Except VizErr (PTree × List String) :=
  let p := set_uniq_innode_name tree_data
  match check_node_name_dup p.1 with
  | [] =>
    if ignore_branch_length ∨ max_tree_depth p.1 = 0 then
      match to_ultrametric_tree p.1 with
      | some u => .ok (u, p.2)
      | none => .error .zero_division
    else .ok (p.1, p.2)
  | d :: ds => .error (.duplicate_names (d :: ds))

end PTree

namespace PTree

/-- `TreeViz.leaf_labels` : `str(n.name)` over `get_terminals()`. -/
def leaf_labels (t : PTree) : List String := t.get_terminals.map name_str

/-- `TreeViz.innode_labels` : `str(n.name)` over `get_nonterminals()`. -/
def innode_labels (t : PTree) : List String := t.get_nonterminals.map name_str

/-- `TreeViz.all_node_labels` = `leaf_labels + innode_labels`. -/
def all_node_labels (t : PTree) : List String := t.leaf_labels ++ t.innode_labels

/-- The level-by-level walk of Bio.Phylo `common_ancestor`: consume
`zip(*paths)` while every path agrees with the first one (clades compared
by name: names are unique), collecting the agreeing prefix. -/
def lcp_with : List String → List (List String) → List String
  | [], _ => []
  | h :: hs, ps =>
    if ps.all (fun l => l.head? = some h) then h :: lcp_with hs (ps.map List.tail)
    else []

/-- `paths = [self.get_path(t) for t in targets]` plus the `None`
validation, each path as its list of clade names. -/
def get_paths (t : PTree) : List String → Option (List (List String))
  | [] => some []
  | nm :: rest =>
    match get_path t nm with
    | none => none
    | some p => (get_paths t rest).map ((p.map name_str) :: ·)

/-- `tree.common_ancestor(*targets)` : the name of the deepest clade on
which all root→target paths agree, the root when they diverge at once;
`none` when some target is not in the tree (Bio.Phylo raises). -/
def common_ancestor (t : PTree) (targets : List String) : Option String :=
  match get_paths t targets with
  | none => none
  | some [] => some t.name_str
  | some (p :: ps) => some ((lcp_with p ps).getLastD t.name_str)

/-- A `query` argument: a plain string or a list of names (Python
`str | list[str] | tuple[str]`). -/
inductive Query where
  | one (s : String)
  | many (l : List String)

/-- The names a query supplies (`query = [query]` for a plain string). -/
def query_names : Query → List String
  | .one s => [s]
  | .many l => l

/-- `_check_node_name_exist` : the queried names missing from
`all_node_labels`, in query order (the raised message lists each). -/
def missing_names (t : PTree) (q : Query) : List String :=
  (query_names q).filter (fun nm => !(t.all_node_labels.contains nm))

/-- `_search_target_node_name` : validate all names exist, then return
the name unchanged for a string query and the `common_ancestor` name for
a list query. -/
def search_target_node_name (t : PTree) (q : Query) : Except VizErr String :=
  match missing_names t q with
  | [] =>
    match q with
    | .one s => .ok s
    | .many l =>
      match common_ancestor t l with
      | some m => .ok m
      | none => .error (.node_not_found l t.all_node_labels)
  | m :: ms => .error (.node_not_found (m :: ms) t.all_node_labels)

/-- `_calc_name2xy_pos`, right-coordinate pass: leaves (reversed
terminal order, reversed again under the `reverse` flag) get
`(distance, idx)` with `idx` counting from 1; then postorder internal
clades get `(distance, mean of the children's y)`.  Entries are keyed by
`str(name)`; the `.getD (0, 0)` models a `KeyError` default that is
unreachable on postorder-complete maps. -/
def calc_name2xy_right (t : PTree) (reverse : Bool) : List (String × (ℚ × ℚ)) :=
  let leaf_nodes := if reverse then t.get_terminals else t.get_terminals.reverse
  let leaf_entries := (leaf_nodes.enumFrom 1).map
    (fun p => (p.2.name_str, (distance t p.2.name_str, (p.1 : ℚ))))
  t.get_nonterminals_postorder.foldl
    (fun acc nd =>
      let x := distance t nd.name_str
      let y := ((nd.clades.map (fun c => (((acc.lookup c.name_str).getD (0, 0)).2))).sum)
        / (nd.clades.length : ℚ)
      acc ++ [(nd.name_str, (x, y))])
    leaf_entries

/-- `_calc_name2xy_pos(pos)` for `pos ∈ {left, center}` (for `right` the
map above is returned): every clade keeps the y of its right coordinate;
the root reuses its right coordinate; any other clade takes its parent
`([root] + get_path(node))[-2]` (compared by name: names unique) and
gets `x = parent right x` for `left` and the midpoint of its own and its
parent's right x for `center`. -/
def calc_name2xy_pos (t : PTree) (pos : String) (reverse : Bool) : List (String × (ℚ × ℚ)) :=
  let right := calc_name2xy_right t reverse
  if pos = "right" then right
  else
    t.find_clades.map (fun nd =>
      if nd.name_str = t.name_str then (nd.name_str, (right.lookup nd.name_str).getD (0, 0))
      else
        let tree_path := t :: (get_path t nd.name_str).getD []
        let parent := tree_path.dropLast.getLastD t
        let parent_xy := (right.lookup parent.name_str).getD (0, 0)
        let node_xy := (right.lookup nd.name_str).getD (0, 0)
        let x := if pos = "center" then (node_xy.1 + parent_xy.1) / 2 else parent_xy.1
        (nd.name_str, (x, node_xy.2)))

/-- The deferred plot closures appended to `self._plot_funcs`, as data.
Arguments that only affect styling/geometry are dropped; what matters to
the claims is which node names each closure re-resolves at render time. -/
inductive PlotCmd where
  | highlight_rect (target : String) (query : Query) (area : String)
  | annotate_line (query : Query) (label : String)
  | marker_pt (target : String)
  | link_line (target1 target2 : String)
  | text_branch (target : String) (content : String)
  | text_node (target : String) (content : String)

/-- The `TreeViz` mutable state the claims touch: the loaded tree, the
auto-assigned internal labels, the registered deferred plot closures and
the axes set by `plotfig` (`None` before the first render). -/
structure TreeVizState where
  tree : PTree
  auto_innode_labels : List String
  plot_funcs : List PlotCmd
  ax : Option Nat

/-- `TreeViz(...)` : build the tree (`treeviz_init`) and start with no
plot functions and no axes. -/
def treeviz_new (tree_data : PTree) (ignore_branch_length : Bool) :
    Except VizErr TreeVizState :=
  (treeviz_init tree_data ignore_branch_length).map
    (fun p => ⟨p.1, p.2, [], none⟩)

/-- `TreeViz.highlight(query, color, area=...)` : validate `area`, then
resolve the query at registration time; only then append the closure. -/
def highlight (st : TreeVizState) (q : Query) (area : String) :
    Except VizErr TreeVizState :=
  if area = "branch" ∨ area = "branch-label" ∨ area = "full" then
    match search_target_node_name st.tree q with
    | .ok target => .ok { st with plot_funcs := st.plot_funcs ++ [.highlight_rect target q area] }
    | .error e => .error e
  else .error (.invalid_option "area" area)

/-- `TreeViz.annotate(query, label, ...)` : only `text_orientation` is
validated at registration; the query is captured unresolved inside the
deferred closure (`plot_annotate` calls `_get_texts_rect(query)` at
render time). -/
def annotate (st : TreeVizState) (q : Query) (label : String)
    (text_orientation : String) : Except VizErr TreeVizState :=
  if text_orientation = "horizontal" ∨ text_orientation = "vertical" then
    .ok { st with plot_funcs := st.plot_funcs ++ [.annotate_line q label] }
  else .error (.invalid_option "text_orientation" text_orientation)

/-- `TreeViz.marker(query, ...)` : resolve at registration, then append. -/
def marker (st : TreeVizState) (q : Query) : Except VizErr TreeVizState :=
  match search_target_node_name st.tree q with
  | .ok target => .ok { st with plot_funcs := st.plot_funcs ++ [.marker_pt target] }
  | .error e => .error e

/-- `TreeViz.link(query1, query2, ...)` : resolve both queries at
registration, then append. -/
def link (st : TreeVizState) (q1 q2 : Query) : Except VizErr TreeVizState :=
  match search_target_node_name st.tree q1 with
  | .error e => .error e
  | .ok t1 =>
    match search_target_node_name st.tree q2 with
    | .error e => .error e
    | .ok t2 => .ok { st with plot_funcs := st.plot_funcs ++ [.link_line t1 t2] }

/-- `TreeViz.text_on_branch(query, text, xpos=..., ypos=...)` : validate
the enumerated options, resolve the query at registration, append. -/
def text_on_branch (st : TreeVizState) (q : Query) (content : String)
    (xpos ypos : String) : Except VizErr TreeVizState :=
  if ¬(xpos = "left" ∨ xpos = "center" ∨ xpos = "right") then
    .error (.invalid_option "xpos" xpos)
  else if ¬(ypos = "top" ∨ ypos = "center" ∨ ypos = "bottom") then
    .error (.invalid_option "ypos" ypos)
  else
    match search_target_node_name st.tree q with
    | .ok target => .ok { st with plot_funcs := st.plot_funcs ++ [.text_branch target content] }
    | .error e => .error e

/-- `TreeViz.text_on_node(query, text)` : resolve at registration, append. -/
def text_on_node (st : TreeVizState) (q : Query) (content : String) :
    Except VizErr TreeVizState :=
  match search_target_node_name st.tree q with
  | .ok target => .ok { st with plot_funcs := st.plot_funcs ++ [.text_node target content] }
  | .error e => .error e

/-- What a deferred closure re-resolves when `plotfig` executes it:
`plot_annotate` resolves its captured query only now;
`plot_highlight` re-resolves its query for `area="branch-label"` and the
leaf-label list for `area="full"`; the other closures only use
already-resolved names. -/
def run_plot_cmd (t : PTree) : PlotCmd → Except VizErr Unit
  | .annotate_line q _ => (search_target_node_name t q).map (fun _ => ())
  | .highlight_rect _ q area =>
    if area = "branch-label" then (search_target_node_name t q).map (fun _ => ())
    else if area = "full" then
      (search_target_node_name t (.many t.leaf_labels)).map (fun _ => ())
    else .ok ()
  | _ => .ok ()

/-- Run all deferred closures in registration order, stopping at the
first raised error. -/
def run_plot_funcs (t : PTree) : List PlotCmd → Except VizErr Unit
  | [] => .ok ()
  | c :: cs =>
    match run_plot_cmd t c with
    | .ok _ => run_plot_funcs t cs
    | .error e => .error e

/-- `TreeViz.plotfig(ax=...)` : the axes (given, or freshly created) are
stored in `self._ax` first, then the tree lines, labels and all deferred
closures are executed; the updated state is returned together with the
outcome (`ok ax` on success, the raised error otherwise). -/
def plotfig (st : TreeVizState) (ax_arg : Option Nat) (fresh_ax : Nat) :
    TreeVizState × Except VizErr Nat :=
  let used_ax := ax_arg.getD fresh_ax
  let st' := { st with ax := some used_ax }
  (st', (run_plot_funcs st'.tree st'.plot_funcs).map (fun _ => used_ax))

/-- The `TreeViz.ax` property: raises before `plotfig` has stored axes. -/
def ax_prop (st : TreeVizState) : Except VizErr Nat :=
  match st.ax with
  | none => .error .ax_not_ready
  | some a => .ok a

end PTree

set_option maxRecDepth 8000

namespace PTree

/-- A small fully-named example tree `(A:1,B:1)r;` used to instantiate
hypothesis-carrying theorems at concrete inputs. -/
def wit_tree : PTree :=
  .node (some "r") none [.node (some "A") (some 1) [], .node (some "B") (some 1) []]

/-- C10: the `ax` property of a freshly constructed `TreeViz` raises a
`ValueError` before `plotfig()` has run, and after any successful
`plotfig()` call it returns exactly the axes that render used, raising
nothing. -/
theorem ax_before_and_after_plotfig (td : PTree) (ib : Bool) (st : TreeVizState)
    (ax_arg : Option Nat) (fresh a : Nat) :
    (treeviz_new td ib = .ok st → ax_prop st = .error .ax_not_ready)
    ∧ ((plotfig st ax_arg fresh).2 = .ok a →
        ax_prop (plotfig st ax_arg fresh).1 = .ok a) := by
  constructor
  · intro h
    unfold treeviz_new at h
    cases hini : treeviz_init td ib with
    | error e => rw [hini] at h; simp [Except.map] at h
    | ok p =>
      rw [hini] at h
      simp only [Except.map] at h
      cases h
      rfl
  · intro h
    unfold plotfig at h ⊢
    cases hrun : run_plot_funcs st.tree st.plot_funcs with
    | error e => simp only [hrun, Except.map] at h; cases h
    | ok u =>
      simp only [hrun, Except.map] at h ⊢
      cases h
      rfl

/-- Witness for C10 at the concrete tree `(A:1,B:1)r;`: construction
succeeds with no axes set, `ax` raises, and after `plotfig` on fresh
axes 7 the property returns 7. -/
theorem ax_before_and_after_plotfig_witness :
    treeviz_new wit_tree false = .ok ⟨wit_tree, [], [], none⟩
    ∧ ax_prop ⟨wit_tree, [], [], none⟩ = .error .ax_not_ready
    ∧ (plotfig ⟨wit_tree, [], [], none⟩ none 7).2 = .ok 7
    ∧ ax_prop (plotfig ⟨wit_tree, [], [], none⟩ none 7).1 = .ok 7 := by
  have hnew : treeviz_new wit_tree false = .ok ⟨wit_tree, [], [], none⟩ := by
    simp [treeviz_new, treeviz_init, set_uniq_innode_name, set_uniq_aux, set_uniq_list,
      check_node_name_dup, counter_keys, all_names, find_clades_def, wit_tree,
      max_tree_depth, depth_pairs, depth_pairs_from_def, list_max, name_str, name,
      branch_length, clades, Except.map]
  have hrun : (plotfig (⟨wit_tree, [], [], none⟩ : TreeVizState) none 7).2 = .ok 7 := by
    simp [plotfig, run_plot_funcs, Except.map]
  refine ⟨hnew, (ax_before_and_after_plotfig wit_tree false ⟨wit_tree, [], [], none⟩
    none 7 7).1 hnew, hrun,
    (ax_before_and_after_plotfig wit_tree false ⟨wit_tree, [], [], none⟩ none 7 7).2 hrun⟩

end PTree

namespace PTree

theorem search_error_of_missing {t : PTree} {q : Query}
    (h : missing_names t q ≠ []) :
    search_target_node_name t q
      = .error (.node_not_found (missing_names t q) t.all_node_labels) := by
  unfold search_target_node_name
  cases hm : missing_names t q with
  | nil => exact absurd hm h
  | cons m ms => rfl

/-- C8 (amended): every modelled registration operation taking a query
except `annotate` resolves it through `_search_target_node_name` at
registration time, so the registration call itself fails with the lookup
error as soon as a supplied name is missing; `annotate` validates only
`text_orientation` at registration, captures the query unresolved, and
the lookup error surfaces only when `plotfig` executes the deferred
closure. -/
theorem registration_query_resolution_timing (st : TreeVizState) (q q2 : Query)
    (area lbl content xpos ypos : String)
    (hmiss : missing_names st.tree q ≠ []) :
    (area = "branch" ∨ area = "branch-label" ∨ area = "full" →
      highlight st q area
        = .error (.node_not_found (missing_names st.tree q) st.tree.all_node_labels))
    ∧ marker st q
        = .error (.node_not_found (missing_names st.tree q) st.tree.all_node_labels)
    ∧ link st q q2
        = .error (.node_not_found (missing_names st.tree q) st.tree.all_node_labels)
    ∧ ((xpos = "left" ∨ xpos = "center" ∨ xpos = "right") →
        (ypos = "top" ∨ ypos = "center" ∨ ypos = "bottom") →
        text_on_branch st q content xpos ypos
          = .error (.node_not_found (missing_names st.tree q) st.tree.all_node_labels))
    ∧ text_on_node st q content
        = .error (.node_not_found (missing_names st.tree q) st.tree.all_node_labels)
    ∧ annotate st q lbl "horizontal"
        = .ok { st with plot_funcs := st.plot_funcs ++ [.annotate_line q lbl] }
    ∧ run_plot_cmd st.tree (.annotate_line q lbl)
        = .error (.node_not_found (missing_names st.tree q) st.tree.all_node_labels) := by
  have hs := search_error_of_missing hmiss
  refine ⟨fun ha => ?_, ?_, ?_, fun hx hy => ?_, ?_, ?_, ?_⟩
  · unfold highlight
    rw [if_pos ha, hs]
  · unfold marker
    rw [hs]
  · unfold link
    rw [hs]
  · unfold text_on_branch
    rw [if_neg (not_not_intro hx), if_neg (not_not_intro hy), hs]
  · unfold text_on_node
    rw [hs]
  · unfold annotate
    rw [if_pos (Or.inl rfl)]
  · simp only [run_plot_cmd]
    rw [hs]
    rfl

/-- Witness for the amended C8 at `(A:1,B:1)r;` with the query
`["A", "Z"]` whose name `Z` is missing. -/
theorem registration_query_resolution_timing_witness :
    missing_names wit_tree (.many ["A", "Z"]) = ["Z"]
    ∧ highlight ⟨wit_tree, [], [], none⟩ (.many ["A", "Z"]) "full"
        = .error (.node_not_found ["Z"] ["A", "B", "r"])
    ∧ annotate ⟨wit_tree, [], [], none⟩ (.many ["A", "Z"]) "grp" "horizontal"
        = .ok ⟨wit_tree, [], [.annotate_line (.many ["A", "Z"]) "grp"], none⟩ := by
  have hlbl : all_node_labels wit_tree = ["A", "B", "r"] := by
    simp [all_node_labels, leaf_labels, innode_labels, get_terminals, get_nonterminals,
      find_clades_def, wit_tree, is_terminal, clades, name_str, name, List.filter]
  have hmiss : missing_names wit_tree (.many ["A", "Z"]) = ["Z"] := by
    simp [missing_names, query_names, hlbl, List.filter]
  have h := registration_query_resolution_timing ⟨wit_tree, [], [], none⟩
    (.many ["A", "Z"]) (.many ["A", "Z"]) "full" "grp" "grp" "left" "top"
    (by rw [hmiss]; exact List.cons_ne_nil _ _)
  refine ⟨hmiss, ?_, h.2.2.2.2.2.1⟩
  have := h.1 (Or.inr (Or.inr rfl))
  rwa [hmiss, hlbl] at this

/-- C8, counterexample to the claim as stated: registering `annotate`
with the query `["A", "Z"]` — `Z` does not exist in `(A:1,B:1)r;` —
succeeds (no lookup error at registration); the lookup error is raised
only by the deferred closure during `plotfig`. -/
theorem annotate_defers_lookup_counterexample :
    missing_names wit_tree (.many ["A", "Z"]) ≠ []
    ∧ annotate ⟨wit_tree, [], [], none⟩ (.many ["A", "Z"]) "grp" "horizontal"
        = .ok ⟨wit_tree, [], [.annotate_line (.many ["A", "Z"]) "grp"], none⟩
    ∧ (plotfig ⟨wit_tree, [], [.annotate_line (.many ["A", "Z"]) "grp"], none⟩ none 1).2
        = .error (.node_not_found ["Z"] ["A", "B", "r"]) := by
  have hlbl : all_node_labels wit_tree = ["A", "B", "r"] := by
    simp [all_node_labels, leaf_labels, innode_labels, get_terminals, get_nonterminals,
      find_clades_def, wit_tree, is_terminal, clades, name_str, name, List.filter]
  have hmiss : missing_names wit_tree (.many ["A", "Z"]) = ["Z"] := by
    simp [missing_names, query_names, hlbl, List.filter]
  refine ⟨by rw [hmiss]; exact List.cons_ne_nil _ _, by simp [annotate], ?_⟩
  have hs : search_target_node_name wit_tree (.many ["A", "Z"])
      = .error (.node_not_found ["Z"] ["A", "B", "r"]) := by
    have := search_error_of_missing (t := wit_tree) (q := .many ["A", "Z"])
      (by rw [hmiss]; exact List.cons_ne_nil _ _)
    rwa [hmiss, hlbl] at this
  simp [plotfig, run_plot_funcs, run_plot_cmd, hs, Except.map]

end PTree

namespace PTree

theorem mem_counter_keys {nm : String} : ∀ {l : List String}, nm ∈ counter_keys l ↔ nm ∈ l := by
  intro l
  induction l using counter_keys.induct with
  | case1 => simp [counter_keys]
  | case2 x xs ih =>
    rw [counter_keys]
    by_cases hx : nm = x
    · simp [hx]
    · simp only [List.mem_cons, hx, false_or]
      rw [ih]
      simp [List.mem_filter, hx]

theorem mem_check_node_name_dup {t : PTree} {nm : String} {cnt : Nat} :
    (nm, cnt) ∈ check_node_name_dup t ↔ t.all_names.count nm = cnt ∧ 1 < cnt := by
  unfold check_node_name_dup
  rw [List.mem_filter]
  constructor
  · rintro ⟨hmem, hgt⟩
    rcases List.mem_map.1 hmem with ⟨n, hn, heq⟩
    cases heq
    exact ⟨rfl, by simpa using hgt⟩
  · rintro ⟨hcount, hgt⟩
    refine ⟨List.mem_map.2 ⟨nm, ?_, by rw [hcount]⟩, by simpa using hgt⟩
    refine mem_counter_keys.2 (List.count_pos_iff.1 ?_)
    omega

theorem check_node_name_dup_eq_nil {t : PTree} :
    check_node_name_dup t = [] ↔ UniqNames t := by
  unfold check_node_name_dup UniqNames
  rw [List.filter_eq_nil_iff, List.nodup_iff_count_le_one]
  constructor
  · intro h nm
    by_contra hgt
    exact h (nm, t.all_names.count nm)
      (List.mem_map.2 ⟨nm, mem_counter_keys.2 (List.count_pos_iff.1 (by omega)), rfl⟩)
      (by simp; omega)
  · intro h p hp
    rcases List.mem_map.1 hp with ⟨n, -, rfl⟩
    have := h n
    simp
    omega

/-- C7: tree construction fails, and does not proceed, exactly when some
node name occurs more than once after the internal-name uniquification
pass; the raised error enumerates every duplicated name with its exact
occurrence count, and construction with all-unique names never raises
that error. -/
theorem duplicate_names_abort_construction (td : PTree) (ib : Bool) :
    (¬ UniqNames (set_uniq_innode_name td).1 →
      treeviz_init td ib
          = .error (.duplicate_names (check_node_name_dup (set_uniq_innode_name td).1))
        ∧ check_node_name_dup (set_uniq_innode_name td).1 ≠ []
        ∧ ∀ nm cnt, ((nm, cnt) ∈ check_node_name_dup (set_uniq_innode_name td).1
            ↔ ((set_uniq_innode_name td).1.all_names.count nm = cnt ∧ 1 < cnt)))
    ∧ (UniqNames (set_uniq_innode_name td).1 →
        ∀ dups, treeviz_init td ib ≠ .error (.duplicate_names dups)) := by
  constructor
  · intro hdup
    have hne : check_node_name_dup (set_uniq_innode_name td).1 ≠ [] := by
      intro hnil
      exact hdup (check_node_name_dup_eq_nil.1 hnil)
    refine ⟨?_, hne, fun nm cnt => mem_check_node_name_dup⟩
    simp only [treeviz_init]
    cases hd : check_node_name_dup (set_uniq_innode_name td).1 with
    | nil => exact absurd hd hne
    | cons d ds => rfl
  · intro huniq dups
    simp only [treeviz_init]
    rw [check_node_name_dup_eq_nil.2 huniq]
    by_cases hb : (ib = true ∨ max_tree_depth (set_uniq_innode_name td).1 = 0)
    · rw [if_pos hb]
      cases to_ultrametric_tree (set_uniq_innode_name td).1 <;> simp
    · rw [if_neg hb]
      simp

/-- Witness for C7: `(X:1,X:1)r;` has the name `X` twice, so construction
fails enumerating `("X", 2)`; the all-unique `(A:1,B:1)r;` does not raise
`duplicate_names`. -/
theorem duplicate_names_abort_construction_witness :
    treeviz_init (.node (some "r") none
        [.node (some "X") (some 1) [], .node (some "X") (some 1) []]) false
      = .error (.duplicate_names [("X", 2)])
    ∧ ("X", 2) ∈ check_node_name_dup (.node (some "r") none
        [.node (some "X") (some 1) [], .node (some "X") (some 1) []])
    ∧ ∀ dups, treeviz_init wit_tree false ≠ .error (.duplicate_names dups) := by
  have hsu : set_uniq_innode_name (.node (some "r") none
      [.node (some "X") (some 1) [], .node (some "X") (some 1) []])
      = (.node (some "r") none [.node (some "X") (some 1) [], .node (some "X") (some 1) []], []) := by
    simp [set_uniq_innode_name, set_uniq_aux, set_uniq_list]
  have hnames : all_names (.node (some "r") none
      [.node (some "X") (some 1) [], .node (some "X") (some 1) []]) = ["r", "X", "X"] := by
    simp [all_names, find_clades_def, name_str, name]
  have hdup : check_node_name_dup (.node (some "r") none
      [.node (some "X") (some 1) [], .node (some "X") (some 1) []]) = [("X", 2)] := by
    simp [check_node_name_dup, hnames, counter_keys, List.count_cons, List.filter]
  have hnodup : ¬ UniqNames (.node (some "r") none
      [.node (some "X") (some 1) [], .node (some "X") (some 1) []]) := by
    intro h
    rw [← check_node_name_dup_eq_nil] at h
    rw [hdup] at h
    cases h
  have h1 := (duplicate_names_abort_construction (.node (some "r") none
    [.node (some "X") (some 1) [], .node (some "X") (some 1) []]) false).1 (by rw [hsu]; exact hnodup)
  have huniqw : UniqNames (set_uniq_innode_name wit_tree).1 := by
    have hsw : set_uniq_innode_name wit_tree = (wit_tree, []) := by
      simp [set_uniq_innode_name, set_uniq_aux, set_uniq_list, wit_tree]
    rw [hsw]
    rw [← check_node_name_dup_eq_nil]
    have hnw : all_names wit_tree = ["r", "A", "B"] := by
      simp [all_names, find_clades_def, wit_tree, name_str, name]
    simp [check_node_name_dup, hnw, counter_keys, List.count_cons, List.filter]
  refine ⟨?_, ?_, (duplicate_names_abort_construction wit_tree false).2 huniqw⟩
  · have := h1.1
    rwa [hsu, hdup] at this
  · rw [hdup]
    exact List.mem_singleton.2 rfl

end PTree

namespace PTree

theorem get_nonterminals_def (n : Option String) (b : Option ℚ) (cs : List PTree) :
    get_nonterminals (.node n b cs)
      = (if cs.isEmpty then [] else [.node n b cs]) ++ (cs.map get_nonterminals).flatten := by
  unfold get_nonterminals
  rw [find_clades_def, List.filter_cons, List.filter_flatten, List.map_map]
  by_cases hcs : cs.isEmpty
  · simp [is_terminal, clades, hcs]
    rfl
  · simp [is_terminal, clades, hcs]
    rfl

theorem get_terminals_def (n : Option String) (b : Option ℚ) (cs : List PTree) :
    get_terminals (.node n b cs)
      = (if cs.isEmpty then [.node n b cs] else []) ++ (cs.map get_terminals).flatten := by
  unfold get_terminals
  rw [find_clades_def, List.filter_cons, List.filter_flatten, List.map_map]
  by_cases hcs : cs.isEmpty
  · simp [is_terminal, clades, hcs]
    rfl
  · simp [is_terminal, clades, hcs]
    rfl

/-- The renaming rule of claim C9 as the code implements it: the clade at
(1-based) position `p.1` of the internal-node enumeration keeps its name
or, when unnamed, becomes `N_<p.1>`. -/
def uniq_rename_rule (p : Nat × PTree) : Option String :=
  some (p.2.name.getD ("N_" ++ toString p.1))

/-- Which enumeration entries produce a recorded auto-name. -/
def uniq_record_rule (p : Nat × PTree) : Option String :=
  if p.2.name = none then some ("N_" ++ toString p.1) else none

theorem set_uniq_list_spec (cs : List PTree)
    (ih : ∀ c ∈ cs, ∀ k : Nat,
      (set_uniq_aux c k).2.1 = k + c.get_nonterminals.length
      ∧ ((set_uniq_aux c k).1.get_nonterminals).map name
          = (c.get_nonterminals.enumFrom k).map uniq_rename_rule
      ∧ (set_uniq_aux c k).2.2 = (c.get_nonterminals.enumFrom k).filterMap uniq_record_rule
      ∧ ((set_uniq_aux c k).1.get_terminals).map name = c.get_terminals.map name
      ∧ (set_uniq_aux c k).1.clades.isEmpty = c.clades.isEmpty) :
    ∀ k : Nat,
      (set_uniq_list cs k).1.length = cs.length
      ∧ (set_uniq_list cs k).2.1 = k + ((cs.map get_nonterminals).flatten).length
      ∧ ((((set_uniq_list cs k).1.map get_nonterminals).flatten).map name
          = (((cs.map get_nonterminals).flatten).enumFrom k).map uniq_rename_rule)
      ∧ (set_uniq_list cs k).2.2
          = (((cs.map get_nonterminals).flatten).enumFrom k).filterMap uniq_record_rule
      ∧ ((((set_uniq_list cs k).1.map get_terminals).flatten).map name
          = ((cs.map get_terminals).flatten).map name) := by
  induction cs with
  | nil => intro k; simp [set_uniq_list]
  | cons c cs ihl =>
    intro k
    obtain ⟨hA, hB, hC, hD, -⟩ := ih c (List.mem_cons_self _ _) k
    obtain ⟨hE', hA', hB', hC', hD'⟩ :=
      ihl (fun c' hc' => ih c' (List.mem_cons_of_mem _ hc')) (k + c.get_nonterminals.length)
    simp only [set_uniq_list, hA]
    refine ⟨by simp [hE'], ?_, ?_, ?_, ?_⟩
    · rw [hA']
      simp [List.length_append]
      omega
    · simp only [List.map_cons, List.flatten_cons, List.map_append, List.enumFrom_append]
      rw [hB, hB']
    · simp only [List.map_cons, List.flatten_cons, List.enumFrom_append, List.filterMap_append]
      rw [hC, hC']
    · simp only [List.map_cons, List.flatten_cons, List.map_append]
      rw [hD, hD']

theorem get_nonterminals_cons (n : Option String) (b : Option ℚ) {cs : List PTree}
    (h : ¬cs.isEmpty = true) :
    get_nonterminals (.node n b cs)
      = .node n b cs :: (cs.map get_nonterminals).flatten := by
  rw [get_nonterminals_def, if_neg h]
  rfl

theorem get_terminals_cons (n : Option String) (b : Option ℚ) {cs : List PTree}
    (h : ¬cs.isEmpty = true) :
    get_terminals (.node n b cs) = (cs.map get_terminals).flatten := by
  rw [get_terminals_def, if_neg h]
  rfl

theorem set_uniq_aux_spec (t : PTree) : ∀ k : Nat,
    (set_uniq_aux t k).2.1 = k + t.get_nonterminals.length
    ∧ ((set_uniq_aux t k).1.get_nonterminals).map name
        = (t.get_nonterminals.enumFrom k).map uniq_rename_rule
    ∧ (set_uniq_aux t k).2.2 = (t.get_nonterminals.enumFrom k).filterMap uniq_record_rule
    ∧ ((set_uniq_aux t k).1.get_terminals).map name = t.get_terminals.map name
    ∧ (set_uniq_aux t k).1.clades.isEmpty = t.clades.isEmpty := by
  induction t using inductionOn with
  | h n b cs ih =>
    intro k
    by_cases hcs : cs.isEmpty
    · obtain rfl : cs = [] := List.isEmpty_iff.1 hcs
      simp [set_uniq_aux, get_nonterminals_def, get_terminals_def, clades]
    · obtain ⟨hE', hA', hB', hC', hD'⟩ := set_uniq_list_spec cs ih (k + 1)
      have hne : ¬((set_uniq_list cs (k + 1)).1.isEmpty = true) := by
        rw [List.isEmpty_iff, ← List.length_eq_zero, hE', List.length_eq_zero]
        exact fun hnil => hcs (by rw [hnil]; rfl)
      have hstep : set_uniq_aux (.node n b cs) k
          = (.node (some (n.getD ("N_" ++ toString k))) b (set_uniq_list cs (k + 1)).1,
             (set_uniq_list cs (k + 1)).2.1,
             (if n = none then ["N_" ++ toString k] else [])
               ++ (set_uniq_list cs (k + 1)).2.2) := by
        cases n <;> simp [set_uniq_aux, hcs]
      rw [hstep, get_nonterminals_cons n b hcs]
      refine ⟨?_, ?_, ?_, ?_, ?_⟩
      · rw [hA']
        simp only [List.length_cons]
        omega
      · rw [get_nonterminals_cons _ _ hne, List.enumFrom_cons, List.map_cons, List.map_cons]
        rw [hB']
        rfl
      · rw [List.enumFrom_cons, List.filterMap_cons]
        cases n with
        | none => simp [uniq_record_rule, name, hC']
        | some s => simp [uniq_record_rule, name, hC']
      · rw [get_terminals_cons _ _ hne, get_terminals_cons n b hcs]
        exact hD'
      · simp only [clades]
        cases hl : (set_uniq_list cs (k + 1)).1 with
        | nil => rw [hl] at hE'; cases cs <;> simp_all
        | cons x xs => rw [hl] at hE'; cases cs <;> simp_all

/-- C9 (amended): during load every internal node receives, in a fixed
deterministic depth-first **preorder** traversal (root first, parent
before children, children left to right, already-named internal nodes
also consuming an index), the synthetic name `N_<k>` when it has no
explicit name, `k` being its 1-based position in that traversal; the
assigned synthetic names are recorded, in order, in the dedicated
auto-name list; leaf names are untouched. -/
theorem set_uniq_innode_name_preorder (t : PTree) :
    ((set_uniq_innode_name t).1.get_nonterminals).map name
        = (t.get_nonterminals.enumFrom 1).map uniq_rename_rule
    ∧ (set_uniq_innode_name t).2
        = (t.get_nonterminals.enumFrom 1).filterMap uniq_record_rule
    ∧ ((set_uniq_innode_name t).1.get_terminals).map name = t.get_terminals.map name := by
  obtain ⟨-, hB, hC, hD, -⟩ := set_uniq_aux_spec t 1
  exact ⟨hB, hC, hD⟩

end PTree

namespace PTree

/-- Modelled from the spec (claim C9): one breadth-first step list —
`fuel` bounds the recursion by the total node count. -/
def level_order_fuel : Nat → List PTree → List PTree
  | 0, _ => []
  | _, [] => []
  | fuel + 1, q => q ++ level_order_fuel fuel ((q.map clades).flatten)

/-- Modelled from the spec (claim C9): the level-order traversal — root
first, then each level left to right. -/
def level_order (t : PTree) : List PTree := level_order_fuel t.find_clades.length [t]

/-- Modelled from the spec (claim C9): the level-order enumeration of
internal nodes that the claim says indexes the synthetic names. -/
def level_order_innodes (t : PTree) : List PTree :=
  (level_order t).filter (fun c => !c.is_terminal)

/-- The topology `(((a,b),c),(d,e));` with all internal nodes unnamed:
the tree on which preorder and level-order numbering differ. -/
def c9_tree : PTree :=
  .node none none
    [.node none none
      [.node none none [.node (some "a") none [], .node (some "b") none []],
       .node (some "c") none []],
     .node none none [.node (some "d") none [], .node (some "e") none []]]

/-- C9, counterexample to the claim as stated: in `(((a,b),c),(d,e));`
the 3rd internal node of the level-order enumeration (index 2, 0-based)
is the parent of `d, e` and the 4th is the parent of `a, b`; yet
`_set_uniq_innode_name` names the parent of `a, b` `N_3` and the parent
of `d, e` `N_4` — the opposite of a level-order numbering, because the
enumeration it uses is preorder. -/
theorem set_uniq_level_order_counterexample :
    (level_order_innodes c9_tree).get? 2
      = some (.node none none [.node (some "d") none [], .node (some "e") none []])
    ∧ (level_order_innodes c9_tree).get? 3
      = some (.node none none [.node (some "a") none [], .node (some "b") none []])
    ∧ (set_uniq_innode_name c9_tree).1
      = .node (some "N_1") none
          [.node (some "N_2") none
            [.node (some "N_3") none [.node (some "a") none [], .node (some "b") none []],
             .node (some "c") none []],
           .node (some "N_4") none [.node (some "d") none [], .node (some "e") none []]]
    ∧ (set_uniq_innode_name c9_tree).2 = ["N_1", "N_2", "N_3", "N_4"]
    ∧ "N_3" ≠ "N_4" := by
  refine ⟨?_, ?_, ?_, ?_, by simp⟩
  · simp [level_order_innodes, level_order, level_order_fuel, c9_tree, find_clades_def,
      clades, is_terminal, List.filter]
  · simp [level_order_innodes, level_order, level_order_fuel, c9_tree, find_clades_def,
      clades, is_terminal, List.filter]
  · simp [set_uniq_innode_name, set_uniq_aux, set_uniq_list, c9_tree]
    refine ⟨by decide, ⟨by decide, by decide⟩, by decide⟩
  · simp [set_uniq_innode_name, set_uniq_aux, set_uniq_list, c9_tree]
    refine ⟨by decide, by decide, by decide, by decide⟩

end PTree

namespace PTree

theorem lookup_isSome_iff_mem_keys {β : Type _} :
    ∀ {l : List (String × β)} {k : String}, (l.lookup k).isSome ↔ k ∈ l.map Prod.fst := by
  intro l k
  induction l with
  | nil => simp [List.lookup]
  | cons e es ih =>
    rw [List.lookup_cons]
    by_cases hk : k == e.1
    · simp [hk]
      exact Or.inl (by simpa using hk)
    · simp only [hk]
      rw [ih]
      simp only [List.map_cons, List.mem_cons]
      constructor
      · exact Or.inr
      · rintro (h | h)
        · exact absurd (by simp [h]) hk
        · exact h

theorem lookup_append_of_isSome {β : Type _} {l1 l2 : List (String × β)} {k : String}
    (h : (l1.lookup k).isSome) : (l1 ++ l2).lookup k = l1.lookup k := by
  induction l1 with
  | nil => simp [List.lookup] at h
  | cons e es ih =>
    obtain ⟨ek, ev⟩ := e
    by_cases hk : k == ek
    · simp [List.lookup_cons, hk]
    · have hkf : (k == ek) = false := by simpa using hk
      rw [List.lookup_cons, hkf] at h
      rw [List.cons_append, List.lookup_cons, List.lookup_cons, hkf]
      exact ih h

theorem foldl_append_entries {β : Type _} {γ : Type _}
    (step : List β → γ → β) :
    ∀ (l : List γ) (init : List β), ∃ suffix,
      l.foldl (fun acc x => acc ++ [step acc x]) init = init ++ suffix := by
  intro l
  induction l with
  | nil => exact fun init => ⟨[], by simp⟩
  | cons x xs ih =>
    intro init
    obtain ⟨s, hs⟩ := ih (init ++ [step init x])
    exact ⟨[step init x] ++ s, by simp [hs]⟩

theorem map_lookup_leaf_entries (t : PTree) :
    ∀ (nodes : List PTree), ((nodes.map name_str).Nodup) → ∀ k : Nat,
      nodes.map (fun nd =>
        (((((nodes.enumFrom k).map
          (fun p => (p.2.name_str, (distance t p.2.name_str, (p.1 : ℚ))))).lookup
            nd.name_str).getD (0, 0)).2))
        = (nodes.enumFrom k).map (fun p => ((p.1 : Nat) : ℚ)) := by
  intro nodes
  induction nodes with
  | nil => intro _ k; rfl
  | cons x rest ih =>
    intro hnodup k
    have hx_notin : x.name_str ∉ rest.map name_str := by
      rw [List.map_cons] at hnodup
      exact (List.nodup_cons.1 hnodup).1
    rw [List.enumFrom_cons, List.map_cons, List.map_cons, List.map_cons]
    congr 1
    · rw [List.lookup_cons]
      simp
    · have hstep : ∀ nd ∈ rest,
          ((((((x :: rest).enumFrom k).map
            (fun p => (p.2.name_str, (distance t p.2.name_str, (p.1 : ℚ))))).lookup
              nd.name_str).getD (0, 0)).2)
          = (((((rest.enumFrom (k + 1)).map
            (fun p => (p.2.name_str, (distance t p.2.name_str, (p.1 : ℚ))))).lookup
              nd.name_str).getD (0, 0)).2) := by
        intro nd hnd
        rw [List.enumFrom_cons, List.map_cons, List.lookup_cons]
        have : (nd.name_str == x.name_str) = false := by
          simp only [beq_eq_false_iff_ne, ne_eq]
          intro hcontra
          exact hx_notin (hcontra ▸ List.mem_map_of_mem _ hnd)
        rw [this]
      refine (List.map_congr_left hstep).trans ?_
      exact ih ((List.nodup_cons.1 (by rwa [List.map_cons] at hnodup)).2) (k + 1)

theorem get_terminals_sublist_names (t : PTree) :
    List.Sublist t.leaf_labels t.all_names := by
  unfold leaf_labels all_names get_terminals
  exact (List.filter_sublist _).map name_str

/-- C5: for a tree with N leaves, the y-coordinates assigned to the leaf
nodes by the layout map form exactly the multiset `{1, …, N}` with no
repeats, for both values of the `reverse` display flag. -/
theorem leaf_y_multiset (t : PTree) (rev : Bool) (hu : UniqNames t) :
    List.Perm
      (t.leaf_labels.map (fun nm =>
        (((calc_name2xy_right t rev).lookup nm).getD (0, 0)).2))
      ((List.range' 1 t.count_terminals).map (fun i => ((i : Nat) : ℚ))) := by
  classical
  set nodes := (if rev then t.get_terminals else t.get_terminals.reverse) with hnodes
  have hperm : List.Perm nodes t.get_terminals := by
    rw [hnodes]
    cases rev
    · simpa using List.reverse_perm _
    · simp
  have hnodup : (nodes.map name_str).Nodup := by
    have hsub : List.Sublist t.leaf_labels t.all_names := get_terminals_sublist_names t
    have : t.leaf_labels.Nodup := hsub.nodup hu
    exact ((hperm.map name_str).nodup_iff).2 this
  set entries := ((nodes.enumFrom 1).map
    (fun p => (p.2.name_str, (distance t p.2.name_str, (p.1 : ℚ))))) with hentries
  obtain ⟨suffix, hsfx⟩ := foldl_append_entries
    (fun acc nd => (nd.name_str,
      (distance t nd.name_str,
        ((nd.clades.map (fun c => (((acc.lookup c.name_str).getD (0, 0)).2))).sum)
          / (nd.clades.length : ℚ))))
    (t.get_nonterminals_postorder) entries
  have hfull : calc_name2xy_right t rev = entries ++ suffix := by
    rw [calc_name2xy_right, ← hnodes, ← hentries, ← hsfx]
  have hkeys : entries.map Prod.fst = nodes.map name_str := by
    rw [hentries, List.map_map]
    have : ((nodes.enumFrom 1).map Prod.snd) = nodes := List.enumFrom_map_snd 1 nodes
    calc (nodes.enumFrom 1).map (Prod.fst ∘ fun p => (p.2.name_str, (distance t p.2.name_str, (p.1 : ℚ))))
        = (nodes.enumFrom 1).map (name_str ∘ Prod.snd) := rfl
      _ = ((nodes.enumFrom 1).map Prod.snd).map name_str := by rw [List.map_map]
      _ = nodes.map name_str := by rw [this]
  have hlk : ∀ nm ∈ nodes.map name_str,
      (calc_name2xy_right t rev).lookup nm = entries.lookup nm := by
    intro nm hnm
    rw [hfull]
    exact lookup_append_of_isSome (lookup_isSome_iff_mem_keys.2 (by rwa [hkeys]))
  have hlabels_perm : List.Perm t.leaf_labels (nodes.map name_str) :=
    (hperm.map name_str).symm
  have hmain :
      List.Perm
        (t.leaf_labels.map (fun nm =>
          (((calc_name2xy_right t rev).lookup nm).getD (0, 0)).2))
        ((nodes.map name_str).map (fun nm =>
          (((calc_name2xy_right t rev).lookup nm).getD (0, 0)).2)) :=
    hlabels_perm.map _
  refine hmain.trans ?_
  have hcongr : (nodes.map name_str).map (fun nm =>
      (((calc_name2xy_right t rev).lookup nm).getD (0, 0)).2)
      = (nodes.map name_str).map (fun nm => (((entries.lookup nm).getD (0, 0)).2)) :=
    List.map_congr_left (fun nm hnm => by rw [hlk nm hnm])
  rw [hcongr, List.map_map]
  have := map_lookup_leaf_entries t nodes hnodup 1
  rw [hentries]
  have heq : nodes.map ((fun nm => (((((nodes.enumFrom 1).map
      (fun p => (p.2.name_str, (distance t p.2.name_str, (p.1 : ℚ))))).lookup nm).getD
        (0, 0)).2)) ∘ name_str)
      = (nodes.enumFrom 1).map (fun p => ((p.1 : Nat) : ℚ)) := this
  rw [heq]
  have hlen : nodes.length = t.count_terminals := by
    rw [hperm.length_eq]
    rfl
  have : (nodes.enumFrom 1).map (fun p => ((p.1 : Nat) : ℚ))
      = ((nodes.enumFrom 1).map Prod.fst).map (fun i => ((i : Nat) : ℚ)) := by
    rw [List.map_map]
    rfl
  rw [this, List.enumFrom_map_fst, hlen]

end PTree

namespace PTree

/-- Witness for C5 at `(A:1,B:1)r;` (2 leaves). -/
theorem leaf_y_multiset_witness :
    UniqNames wit_tree
    ∧ List.Perm
        (wit_tree.leaf_labels.map (fun nm =>
          (((calc_name2xy_right wit_tree false).lookup nm).getD (0, 0)).2))
        ((List.range' 1 wit_tree.count_terminals).map (fun i => ((i : Nat) : ℚ))) := by
  have hu : UniqNames wit_tree := by
    simp [UniqNames, all_names, find_clades_def, wit_tree, name_str, name]
  exact ⟨hu, leaf_y_multiset wit_tree false hu⟩

end PTree

namespace PTree

theorem sizeOf_le_of_mem_find_clades {t x : PTree} (hx : x ∈ t.find_clades) :
    sizeOf x ≤ sizeOf t := by
  induction t using inductionOn with
  | h n b cs ih =>
    rw [find_clades_def] at hx
    rcases List.mem_cons.1 hx with rfl | hx
    · exact le_refl _
    · rcases List.mem_flatten.1 hx with ⟨l, hl, hxl⟩
      rcases List.mem_map.1 hl with ⟨c, hc, rfl⟩
      exact le_of_lt (lt_of_le_of_lt (ih c hc hxl) (sizeOf_lt_of_mem hc))

theorem not_self_mem_clades {m c : PTree} (hm : m ∈ c.find_clades) (hc : c ∈ m.clades) :
    False := by
  have h1 : sizeOf m ≤ sizeOf c := sizeOf_le_of_mem_find_clades hm
  have h2 : sizeOf c < sizeOf m := sizeOf_lt_of_mem_clades hc
  omega

theorem lookup_mem {β : Type _} : ∀ {l : List (String × β)} {k : String} {v : β},
    l.lookup k = some v → (k, v) ∈ l := by
  intro l
  induction l with
  | nil => intro k v h; simp [List.lookup] at h
  | cons e es ih =>
    intro k v h
    obtain ⟨ek, ev⟩ := e
    rw [List.lookup_cons] at h
    by_cases hk : k == ek
    · have hke : k = ek := by simpa using hk
      rw [hk] at h
      cases h
      subst hke
      exact List.mem_cons_self _ _
    · have hkf : (k == ek) = false := by simpa using hk
      rw [hkf] at h
      exact List.mem_cons_of_mem _ (ih h)

theorem lookup_of_mem_nodup {β : Type _} : ∀ {l : List (String × β)},
    (l.map Prod.fst).Nodup → ∀ {k : String} {v : β}, (k, v) ∈ l → l.lookup k = some v := by
  intro l
  induction l with
  | nil => intro _ k v h; simp at h
  | cons e es ih =>
    intro hnodup k v h
    obtain ⟨ek, ev⟩ := e
    rcases List.mem_cons.1 h with heq | hmem
    · cases heq
      simp [List.lookup_cons]
    · have hk : (k == ek) = false := by
        simp only [beq_eq_false_iff_ne, ne_eq]
        intro hcontra
        subst hcontra
        exact (List.nodup_cons.1 (by simpa using hnodup)).1
          (List.mem_map_of_mem Prod.fst hmem)
      rw [List.lookup_cons, hk]
      exact ih (List.nodup_cons.1 (by simpa using hnodup)).2 hmem

/-- Splitting the uniqueness invariant at a node: children are unique,
their name sets are pairwise disjoint, and the node's own name occurs in
no child subtree. -/
theorem uniq_names_split {n : Option String} {b : Option ℚ} {cs : List PTree}
    (hu : UniqNames (.node n b cs)) :
    (∀ c ∈ cs, UniqNames c)
    ∧ (cs.Pairwise (fun a b => a.all_names.Disjoint b.all_names))
    ∧ (∀ c ∈ cs, name_str (.node n b cs) ∉ c.all_names) := by
  unfold UniqNames at hu
  rw [all_names_def, List.nodup_cons, List.nodup_flatten] at hu
  obtain ⟨hroot, hsub, hpair⟩ := hu
  refine ⟨fun c hc => hsub c.all_names (List.mem_map_of_mem _ hc), ?_, ?_⟩
  · exact (List.pairwise_map).1 hpair
  · intro c hc hmem
    exact hroot (List.mem_flatten.2 ⟨c.all_names, List.mem_map_of_mem _ hc, hmem⟩)

theorem findSome?_eq_of_unique {α β : Type _} {f : α → Option β} :
    ∀ {l : List α} {a : α} {v : β}, a ∈ l → f a = some v →
      (∀ b ∈ l, b ≠ a → f b = none) → l.findSome? f = some v := by
  intro l
  induction l with
  | nil => intro a v h; simp at h
  | cons x xs ih =>
    intro a v ha hfa hunique
    rw [List.findSome?_cons]
    cases hfx : f x with
    | some w =>
      have hxa : x = a := by
        by_contra hne
        rw [hunique x (List.mem_cons_self _ _) hne] at hfx
        cases hfx
      rw [hxa, hfa] at hfx
      cases hfx
      rfl
    | none =>
      have hamem : a ∈ xs := by
        rcases List.mem_cons.1 ha with rfl | h
        · rw [hfa] at hfx; cases hfx
        · exact h
      exact ih hamem hfa (fun b hb hne => hunique b (List.mem_cons_of_mem _ hb) hne)

theorem find_clades_postorder_perm (t : PTree) :
    List.Perm t.find_clades_postorder t.find_clades := by
  induction t using inductionOn with
  | h n b cs ih =>
    rw [find_clades_postorder_def, find_clades_def]
    refine (List.perm_append_singleton _ _).trans ?_
    refine List.Perm.cons _ ?_
    have haux : ∀ (l : List PTree),
        (∀ c ∈ l, List.Perm c.find_clades_postorder c.find_clades) →
        List.Perm (l.map find_clades_postorder).flatten (l.map find_clades).flatten := by
      intro l
      induction l with
      | nil => intro _; exact List.Perm.refl _
      | cons c lc ihl =>
        intro hall
        simp only [List.map_cons, List.flatten_cons]
        exact List.Perm.append (hall c (List.mem_cons_self _ _))
          (ihl fun c' hc' => hall c' (List.mem_cons_of_mem _ hc'))
    exact haux cs ih

theorem depth_pairs_from_keys (unit : Bool) :
    ∀ (t : PTree) (d : ℚ), (depth_pairs_from unit d t).map Prod.fst = t.all_names := by
  intro t
  induction t using inductionOn with
  | h n b cs ih =>
    intro d
    rw [depth_pairs_from_def, all_names_def]
    simp only [List.map_cons, List.map_flatten, List.map_map]
    congr 2
    exact List.map_congr_left (fun c hc => ih c hc _)

end PTree

namespace PTree

/-- With globally unique names a clade value has at most one parent in
the tree (the key fact behind the `tree_path[-2]` parent computation of
`_calc_name2xy_pos` and `_calc_name2rect`). -/
theorem parent_unique {t : PTree} (hu : UniqNames t) :
    ∀ {m m' c : PTree}, m ∈ t.find_clades → m' ∈ t.find_clades →
      c ∈ m.clades → c ∈ m'.clades → m = m' := by
  induction t using inductionOn with
  | h n b cs ih =>
    intro m m' c hm hm' hc hc'
    obtain ⟨hcu, hpair, hroot_notin⟩ := uniq_names_split hu
    have hdecomp : ∀ {x : PTree}, x ∈ find_clades (.node n b cs) →
        x = .node n b cs ∨ ∃ ci ∈ cs, x ∈ ci.find_clades := by
      intro x hx
      rw [find_clades_def, List.mem_cons] at hx
      rcases hx with rfl | hx
      · exact Or.inl rfl
      · rcases List.mem_flatten.1 hx with ⟨l, hl, hxl⟩
        rcases List.mem_map.1 hl with ⟨ci, hci, rfl⟩
        exact Or.inr ⟨ci, hci, hxl⟩
    have hdisj : ∀ ⦃a : PTree⦄, a ∈ cs → ∀ ⦃a' : PTree⦄, a' ∈ cs → a ≠ a' →
        a.all_names.Disjoint a'.all_names :=
      hpair.forall (fun _ _ hab => hab.symm)
    have hname_in : ∀ {ci : PTree}, ci ∈ cs → ∀ {x : PTree}, x ∈ ci.find_clades →
        c ∈ x.clades → c.name_str ∈ ci.all_names := by
      intro ci hci x hx hcx
      exact List.mem_map_of_mem _ (children_mem_find_clades hx hcx)
    have hcase_root : ∀ {x : PTree}, x ∈ find_clades (.node n b cs) →
        c ∈ x.clades → c ∈ clades (.node n b cs) → x = .node n b cs := by
      intro x hx hcx hcs
      rcases hdecomp hx with rfl | ⟨ci, hci, hxi⟩
      · rfl
      · exfalso
        have h1 : c.name_str ∈ c.all_names :=
          List.mem_map_of_mem _ (mem_find_clades_self c)
        have h2 : c.name_str ∈ ci.all_names := hname_in hci hxi hcx
        by_cases hcc : c = ci
        · subst hcc
          exact not_self_mem_clades hxi hcx
        · exact (hdisj hcs hci hcc) h1 h2
    rcases hdecomp hm with rfl | ⟨ci, hci, hmi⟩
    · exact (hcase_root hm' hc' hc).symm
    · rcases hdecomp hm' with rfl | ⟨cj, hcj, hmj⟩
      · exact hcase_root (by
          rw [find_clades_def]
          exact List.mem_cons_of_mem _
            (List.mem_flatten.2 ⟨ci.find_clades, List.mem_map_of_mem _ hci, hmi⟩)) hc hc'
      · have hci_name : c.name_str ∈ ci.all_names := hname_in hci hmi hc
        have hcj_name : c.name_str ∈ cj.all_names := hname_in hcj hmj hc'
        by_cases hij : ci = cj
        · subst hij
          exact ih ci hci (hcu ci hci) hmi hmj hc hc'
        · exact absurd hcj_name ((hdisj hci hcj hij) hci_name)

theorem chain_penult {R : PTree → PTree → Prop} :
    ∀ {ch : List PTree}, List.Chain' R ch →
      ∀ {pn x : PTree}, ch.dropLast.getLast? = some pn → ch.getLast? = some x → R pn x := by
  intro ch
  induction ch with
  | nil => intro _ pn x h; simp at h
  | cons a l ih =>
    intro hch pn x hpn hx
    cases l with
    | nil => simp at hpn
    | cons b l2 =>
      cases l2 with
      | nil =>
        simp at hpn hx
        subst hpn
        subst hx
        exact (List.chain'_cons.1 hch).1
      | cons cc l3 =>
        have hne : (b :: cc :: l3).dropLast ≠ [] := by
          rw [List.dropLast_cons₂]
          simp
        rw [List.dropLast_cons₂] at hpn
        have hpn2 : (b :: cc :: l3).dropLast.getLast? = some pn := by
          cases hdl : (b :: cc :: l3).dropLast with
          | nil => exact absurd hdl hne
          | cons y ys =>
            rw [hdl] at hpn
            rwa [List.getLast?_cons_cons] at hpn
        rw [List.getLast?_cons_cons] at hx
        exact ih (List.chain'_cons.1 hch).2 hpn2 hx

/-- The value recorded by Bio.Phylo `depths` for a clade name: the start
depth plus the accumulated per-edge weights (1 in unit mode,
`branch_length or 0` otherwise) along the DFS chain to that clade.  -/
theorem depth_pairs_from_chain (unit : Bool) :
    ∀ {t : PTree}, UniqNames t → ∀ {d0 : ℚ} {nm : String} {d : ℚ},
      (nm, d) ∈ depth_pairs_from unit d0 t →
      ∃ ch, find_chain nm t = some ch
        ∧ d = d0 + ((ch.tail.map (fun c =>
            if unit then 1 else c.branch_length.getD 0)).sum) := by
  intro t
  induction t using inductionOn with
  | h n b cs ih =>
    intro hu d0 nm d hmem
    obtain ⟨hcu, hpair, hroot_notin⟩ := uniq_names_split hu
    rw [depth_pairs_from_def, List.mem_cons] at hmem
    rcases hmem with heq | hmem
    · rw [Prod.mk.injEq] at heq
      obtain ⟨h1, h2⟩ := heq
      subst h1
      subst h2
      refine ⟨[.node n b cs], ?_, by simp⟩
      rw [find_chain_def, if_pos rfl]
    · rcases List.mem_flatten.1 hmem with ⟨l, hl, hml⟩
      rcases List.mem_map.1 hl with ⟨c, hc, rfl⟩
      obtain ⟨chc, hchc, hd⟩ := ih c hc (hcu c hc) hml
      have hnm_in_c : nm ∈ c.all_names := by
        have : nm ∈ (depth_pairs_from unit
            (d0 + if unit then 1 else c.branch_length.getD 0) c).map Prod.fst :=
          List.mem_map_of_mem _ hml
        rwa [depth_pairs_from_keys] at this
      have hnm_ne_root : ¬(name_str (.node n b cs) = nm) := by
        intro hcontra
        exact hroot_notin c hc (hcontra ▸ hnm_in_c)
      have hfs : cs.findSome? (find_chain nm) = some chc := by
        refine findSome?_eq_of_unique hc hchc ?_
        intro b' hb' hne
        cases hfb : find_chain nm b' with
        | none => rfl
        | some chb =>
          exfalso
          have : nm ∈ b'.all_names :=
            find_chain_isSome_iff.1 (by rw [hfb]; rfl)
          exact ((hpair.forall (fun _ _ hab => hab.symm)) hb' hc hne) this hnm_in_c
      have hchain : find_chain nm (.node n b cs) = some ((PTree.node n b cs) :: chc) := by
        rw [find_chain_def, if_neg hnm_ne_root, hfs]
        rfl
      refine ⟨(PTree.node n b cs) :: chc, hchain, ?_⟩
      obtain ⟨chead, -, -, -⟩ := find_chain_spec hchc
      obtain ⟨c2, rfl⟩ : ∃ rest, chc = c :: rest := by
        cases chc with
        | nil => simp at chead
        | cons y ys => cases chead; exact ⟨ys, rfl⟩
      rw [hd]
      simp only [List.tail_cons, List.map_cons, List.sum_cons]
      ring

end PTree

namespace PTree

theorem foldl_xy_suffix (t : PTree) (f : List (String × (ℚ × ℚ)) → PTree → ℚ) :
    ∀ (l : List PTree) (init : List (String × (ℚ × ℚ))), ∃ suffix,
      l.foldl (fun acc nd => acc ++ [(nd.name_str, (distance t nd.name_str, f acc nd))]) init
        = init ++ suffix
      ∧ suffix.map Prod.fst = l.map name_str
      ∧ ∀ e ∈ suffix, e.2.1 = distance t e.1 := by
  intro l
  induction l with
  | nil => exact fun init => ⟨[], by simp⟩
  | cons x xs ih =>
    intro init
    obtain ⟨s, hs, hkeys, hinv⟩ :=
      ih (init ++ [(x.name_str, (distance t x.name_str, f init x))])
    refine ⟨(x.name_str, (distance t x.name_str, f init x)) :: s, ?_, ?_, ?_⟩
    · rw [List.foldl_cons, hs]
      simp
    · simp [hkeys]
    · intro e he
      rcases List.mem_cons.1 he with rfl | he
      · rfl
      · exact hinv e he

theorem mem_leaf_or_innode_names {t : PTree} {nm : String} (hnm : nm ∈ t.all_names) :
    nm ∈ t.get_terminals.map name_str ∨ nm ∈ t.get_nonterminals_postorder.map name_str := by
  rcases List.mem_map.1 hnm with ⟨x, hx, rfl⟩
  by_cases hterm : x.is_terminal
  · exact Or.inl (List.mem_map_of_mem _ (List.mem_filter.2 ⟨hx, hterm⟩))
  · refine Or.inr (List.mem_map_of_mem _ (List.mem_filter.2
      ⟨(find_clades_postorder_perm t).mem_iff.2 hx, by simpa using hterm⟩))

/-- Every node name has an entry in the right-coordinate map and its x
is `tree.distance(name)`. -/
theorem calc_name2xy_right_lookup (t : PTree) (rev : Bool) {nm : String}
    (hnm : nm ∈ t.all_names) :
    ∃ y, (calc_name2xy_right t rev).lookup nm = some (distance t nm, y) := by
  classical
  set nodes := (if rev then t.get_terminals else t.get_terminals.reverse) with hnodes
  set entries := ((nodes.enumFrom 1).map
    (fun p => (p.2.name_str, (distance t p.2.name_str, (p.1 : ℚ))))) with hentries
  obtain ⟨suffix, hsfx, hskeys, hsinv⟩ := foldl_xy_suffix t
    (fun acc nd => ((nd.clades.map (fun c => (((acc.lookup c.name_str).getD (0, 0)).2))).sum)
      / (nd.clades.length : ℚ))
    (t.get_nonterminals_postorder) entries
  have hfull : calc_name2xy_right t rev = entries ++ suffix := by
    rw [calc_name2xy_right, ← hnodes, ← hentries, ← hsfx]
  have hekeys : entries.map Prod.fst = nodes.map name_str := by
    rw [hentries, List.map_map]
    have h2 : ((nodes.enumFrom 1).map Prod.snd) = nodes := List.enumFrom_map_snd 1 nodes
    calc (nodes.enumFrom 1).map (Prod.fst ∘ fun p =>
          (p.2.name_str, (distance t p.2.name_str, (p.1 : ℚ))))
        = ((nodes.enumFrom 1).map Prod.snd).map name_str := by rw [List.map_map]; rfl
      _ = nodes.map name_str := by rw [h2]
  have hcover : nm ∈ (calc_name2xy_right t rev).map Prod.fst := by
    rw [hfull, List.map_append, hekeys, hskeys, List.mem_append]
    rcases mem_leaf_or_innode_names hnm with h | h
    · left
      rw [hnodes]
      cases rev
      · simpa using h
      · simpa using h
    · exact Or.inr h
  have hisSome := lookup_isSome_iff_mem_keys.2 hcover
  obtain ⟨v, hv⟩ := Option.isSome_iff_exists.1 hisSome
  have hvmem := lookup_mem hv
  have hx : v.1 = distance t nm := by
    rw [hfull, List.mem_append] at hvmem
    rcases hvmem with h | h
    · rw [hentries] at h
      rcases List.mem_map.1 h with ⟨p, -, heq⟩
      rw [Prod.mk.injEq] at heq
      obtain ⟨h1, h2⟩ := heq
      rw [← h2, ← h1]
    · exact hsinv (nm, v) h
  exact ⟨v.2, by rw [hv, ← hx]⟩

theorem calc_name2xy_pos_keys (t : PTree) (rev : Bool) {pos : String}
    (hpos : ¬(pos = "right")) :
    (calc_name2xy_pos t pos rev).map Prod.fst = t.all_names := by
  rw [calc_name2xy_pos, if_neg hpos, List.map_map]
  refine List.map_congr_left (fun nd _ => ?_)
  by_cases h : nd.name_str = t.name_str
  · simp [h]
  · simp [h]

end PTree

namespace PTree

theorem calc_name2xy_pos_lookup (t : PTree) (rev : Bool) {pos : String}
    (hpos : ¬(pos = "right")) (hu : UniqNames t) {x : PTree} (hx : x ∈ t.find_clades) :
    (calc_name2xy_pos t pos rev).lookup x.name_str
      = some (if x.name_str = t.name_str
          then ((calc_name2xy_right t rev).lookup x.name_str).getD (0, 0)
          else
            ((if pos = "center"
              then ((((calc_name2xy_right t rev).lookup x.name_str).getD (0, 0)).1
                + (((calc_name2xy_right t rev).lookup
                    ((t :: (get_path t x.name_str).getD []).dropLast.getLastD t).name_str).getD
                      (0, 0)).1) / 2
              else (((calc_name2xy_right t rev).lookup
                  ((t :: (get_path t x.name_str).getD []).dropLast.getLastD t).name_str).getD
                    (0, 0)).1),
             (((calc_name2xy_right t rev).lookup x.name_str).getD (0, 0)).2)) := by
  apply lookup_of_mem_nodup (by rw [calc_name2xy_pos_keys t rev hpos]; exact hu)
  rw [calc_name2xy_pos, if_neg hpos]
  refine List.mem_map.2 ⟨x, hx, ?_⟩
  by_cases h : x.name_str = t.name_str
  · simp [h]
  · simp [h]

/-- C4: in the layout maps, for every non-root node the left-alignment x
equals its parent's right-alignment x, the center-alignment x is the
midpoint of its own and its parent's right-alignment x, the
right-alignment x equals the node's distance from the root (cumulative
branch length, which is the Bio.Phylo depth minus the root's own branch
length), both left and center keep the node's y; and for the root the
left and center maps coincide with the right map. -/
theorem xy_alignment_relations (t : PTree) (rev : Bool) (hu : UniqNames t) :
    (∀ m child, m ∈ t.find_clades → child ∈ m.clades →
      ∃ xc yc xp yp,
        (calc_name2xy_right t rev).lookup child.name_str = some (xc, yc)
        ∧ (calc_name2xy_right t rev).lookup m.name_str = some (xp, yp)
        ∧ xc = distance t child.name_str
        ∧ xp = distance t m.name_str
        ∧ (∃ dv, (child.name_str, dv) ∈ depth_pairs false t
            ∧ dv = t.branch_length.getD 0 + xc)
        ∧ (calc_name2xy_pos t "left" rev).lookup child.name_str = some (xp, yc)
        ∧ (calc_name2xy_pos t "center" rev).lookup child.name_str
            = some ((xc + xp) / 2, yc))
    ∧ (calc_name2xy_pos t "left" rev).lookup t.name_str
        = (calc_name2xy_right t rev).lookup t.name_str
    ∧ (calc_name2xy_pos t "center" rev).lookup t.name_str
        = (calc_name2xy_right t rev).lookup t.name_str := by
  have hroot_lookup : ∀ {pos : String}, ¬(pos = "right") →
      (calc_name2xy_pos t pos rev).lookup t.name_str
        = (calc_name2xy_right t rev).lookup t.name_str := by
    intro pos hpos
    rw [calc_name2xy_pos_lookup t rev hpos hu (mem_find_clades_self t), if_pos rfl]
    obtain ⟨y, hy⟩ := calc_name2xy_right_lookup t rev
      (List.mem_map_of_mem name_str (mem_find_clades_self t))
    rw [hy]
    rfl
  refine ⟨?_, hroot_lookup (by decide), hroot_lookup (by decide)⟩
  intro m child hm hchild
  have hchild_mem : child ∈ t.find_clades := children_mem_find_clades hm hchild
  have hcname : child.name_str ∈ t.all_names := List.mem_map_of_mem _ hchild_mem
  have hmname : m.name_str ∈ t.all_names := List.mem_map_of_mem _ hm
  obtain ⟨yc, hyc⟩ := calc_name2xy_right_lookup t rev hcname
  obtain ⟨yp, hyp⟩ := calc_name2xy_right_lookup t rev hmname
  have hchild_ne_root : ¬(child.name_str = t.name_str) := by
    intro hcontra
    have heq : child = t := name_str_inj hu hchild_mem (mem_find_clades_self t) hcontra
    exact not_self_mem_clades hm (heq ▸ hchild)
  have hchain_some : (find_chain child.name_str t).isSome := find_chain_isSome_iff.2 hcname
  obtain ⟨ch, hch⟩ := Option.isSome_iff_exists.1 hchain_some
  obtain ⟨hhead, ⟨lst, hlast, hlname⟩, hchainrel, hsub⟩ := find_chain_spec hch
  obtain ⟨rest, rfl⟩ : ∃ rest, ch = t :: rest := by
    cases ch with
    | nil => simp at hhead
    | cons y ys => cases hhead; exact ⟨ys, rfl⟩
  have hlst_child : lst = child :=
    name_str_inj hu (hsub.subset (mem_of_getLast? hlast)) hchild_mem hlname
  obtain ⟨r, rs, rfl⟩ : ∃ r rs, rest = r :: rs := by
    cases rest with
    | nil =>
      exfalso
      simp at hlast
      exact hchild_ne_root (by rw [← hlst_child, hlast])
    | cons r rs => exact ⟨r, rs, rfl⟩
  have hdl : (t :: r :: rs).dropLast = t :: (r :: rs).dropLast := List.dropLast_cons₂
  have hdl_ne : (t :: r :: rs).dropLast ≠ [] := by rw [hdl]; simp
  set pn := (t :: r :: rs).dropLast.getLast hdl_ne with hpn
  have hpn? : (t :: r :: rs).dropLast.getLast? = some pn :=
    List.getLast?_eq_getLast _ hdl_ne
  have hlast' : (t :: r :: rs).getLast? = some child := by rw [hlast, hlst_child]
  have hrel : child ∈ pn.clades := chain_penult hchainrel hpn? hlast'
  have hpn_mem : pn ∈ t.find_clades :=
    hsub.subset ((List.dropLast_sublist _).subset (List.getLast_mem hdl_ne))
  have hpm : pn = m := parent_unique hu hpn_mem hm hrel hchild
  have hpath : get_path t child.name_str = some (r :: rs) := by
    rw [get_path, hch]
    rfl
  have hparent_eq : ((t :: (get_path t child.name_str).getD []).dropLast.getLastD t) = m := by
    rw [hpath]
    simp only [Option.getD_some]
    rw [List.getLastD_eq_getLast?, hpn?]
    simpa using hpm
  have hdist_sum : distance t child.name_str
      = (((r :: rs).map (fun c => c.branch_length.getD 0)).sum) := by
    rw [distance, hpath]
    rfl
  have hdepth : ∃ dv, (child.name_str, dv) ∈ depth_pairs false t
      ∧ dv = t.branch_length.getD 0 + distance t child.name_str := by
    have hkey : child.name_str ∈ (depth_pairs false t).map Prod.fst := by
      rw [depth_pairs, depth_pairs_from_keys]
      exact hcname
    rcases List.mem_map.1 hkey with ⟨p2, hmem2, hfst⟩
    obtain ⟨nm2, dv⟩ := p2
    have hfst2 : nm2 = child.name_str := hfst
    subst hfst2
    rw [depth_pairs] at hmem2
    obtain ⟨ch2, hch2, hdv⟩ := depth_pairs_from_chain false hu hmem2
    rw [hch] at hch2
    cases hch2
    refine ⟨dv, hmem2, ?_⟩
    rw [hdv, hdist_sum]
    simp
  refine ⟨distance t child.name_str, yc, distance t m.name_str, yp,
    hyc, hyp, rfl, rfl, hdepth, ?_, ?_⟩
  · rw [calc_name2xy_pos_lookup t rev (by decide) hu hchild_mem, if_neg hchild_ne_root]
    rw [hparent_eq, hyc, hyp]
    simp
  · rw [calc_name2xy_pos_lookup t rev (by decide) hu hchild_mem, if_neg hchild_ne_root]
    rw [hparent_eq, hyc, hyp]
    simp

end PTree

namespace PTree

/-- Witness for C4 at `(A:1,B:1)r;` with parent `r` and child `A`. -/
theorem xy_alignment_relations_witness :
    UniqNames wit_tree
    ∧ (.node (some "A") (some 1) []) ∈ wit_tree.clades
    ∧ (∃ xc yc xp yp,
        (calc_name2xy_right wit_tree false).lookup
            (name_str (.node (some "A") (some 1) [])) = some (xc, yc)
        ∧ (calc_name2xy_right wit_tree false).lookup wit_tree.name_str = some (xp, yp)
        ∧ xc = distance wit_tree (name_str (.node (some "A") (some 1) []))
        ∧ xp = distance wit_tree wit_tree.name_str
        ∧ (∃ dv, (name_str (.node (some "A") (some 1) []), dv) ∈ depth_pairs false wit_tree
            ∧ dv = wit_tree.branch_length.getD 0 + xc)
        ∧ (calc_name2xy_pos wit_tree "left" false).lookup
            (name_str (.node (some "A") (some 1) [])) = some (xp, yc)
        ∧ (calc_name2xy_pos wit_tree "center" false).lookup
            (name_str (.node (some "A") (some 1) [])) = some ((xc + xp) / 2, yc)) := by
  have hu : UniqNames wit_tree := by
    simp [UniqNames, all_names, find_clades_def, wit_tree, name_str, name]
  have hchild : (PTree.node (some "A") (some 1) []) ∈ wit_tree.clades := by
    simp [wit_tree, clades]
  exact ⟨hu, hchild, (xy_alignment_relations wit_tree false hu).1 wit_tree
    (.node (some "A") (some 1) []) (mem_find_clades_self wit_tree) hchild⟩

end PTree

namespace PTree

/-- `anc` names a clade whose subtree contains a clade named `target`
(ancestor-or-self, the sense in which Bio.Phylo's `common_ancestor` is
an ancestor of every target). -/
def IsAncestor (t : PTree) (anc target : String) : Prop :=
  ∃ x ∈ t.find_clades, x.name_str = anc ∧ target ∈ x.all_names

theorem mem_all_node_labels {t : PTree} {nm : String} :
    nm ∈ t.all_node_labels ↔ nm ∈ t.all_names := by
  unfold all_node_labels leaf_labels innode_labels get_terminals get_nonterminals all_names
  rw [List.mem_append]
  constructor
  · rintro (h | h)
    · rcases List.mem_map.1 h with ⟨x, hx, rfl⟩
      exact List.mem_map_of_mem _ (List.mem_of_mem_filter hx)
    · rcases List.mem_map.1 h with ⟨x, hx, rfl⟩
      exact List.mem_map_of_mem _ (List.mem_of_mem_filter hx)
  · intro h
    rcases List.mem_map.1 h with ⟨x, hx, rfl⟩
    by_cases hterm : x.is_terminal
    · exact Or.inl (List.mem_map_of_mem _ (List.mem_filter.2 ⟨hx, hterm⟩))
    · exact Or.inr (List.mem_map_of_mem _ (List.mem_filter.2 ⟨hx, by simpa using hterm⟩))

theorem find_clades_trans : ∀ {a x z : PTree},
    x ∈ a.find_clades → z ∈ x.find_clades → z ∈ a.find_clades := by
  intro a
  induction a using inductionOn with
  | h n b cs ih =>
    intro x z hx hz
    rw [find_clades_def, List.mem_cons] at hx
    rcases hx with rfl | hx
    · exact hz
    · rcases List.mem_flatten.1 hx with ⟨l, hl, hxl⟩
      rcases List.mem_map.1 hl with ⟨ci, hci, rfl⟩
      rw [find_clades_def]
      exact List.mem_cons_of_mem _ (List.mem_flatten.2
        ⟨ci.find_clades, List.mem_map_of_mem _ hci, ih ci hci hxl hz⟩)

theorem all_names_subset_of_mem {a x : PTree} (hx : x ∈ a.find_clades) :
    x.all_names ⊆ a.all_names := by
  intro z hz
  rcases List.mem_map.1 hz with ⟨zx, hzx, rfl⟩
  exact List.mem_map_of_mem _ (find_clades_trans hx hzx)

theorem chain_last_mem : ∀ {ch : List PTree},
    List.Chain' (fun a b => b ∈ a.clades) ch → ∀ {lst : PTree},
    ch.getLast? = some lst → ∀ x ∈ ch, lst ∈ x.find_clades := by
  intro ch
  induction ch with
  | nil => intro _ lst h; simp at h
  | cons a l ih =>
    intro hch lst hlast x hx
    cases l with
    | nil =>
      simp at hlast
      rcases List.mem_singleton.1 hx with rfl
      subst hlast
      exact mem_find_clades_self _
    | cons b l2 =>
      rw [List.getLast?_cons_cons] at hlast
      rcases List.mem_cons.1 hx with rfl | hx
      · have hb : lst ∈ b.find_clades :=
          ih (List.chain'_cons.1 hch).2 hlast b (List.mem_cons_self _ _)
        exact mem_find_clades_of_child (List.chain'_cons.1 hch).1 hb
      · exact ih (List.chain'_cons.1 hch).2 hlast x hx

theorem mem_chain_of_ancestor {anc target : String} :
    ∀ {t : PTree}, UniqNames t → ∀ {ch : List PTree},
      find_chain target t = some ch →
      ∀ {x : PTree}, x ∈ t.find_clades → x.name_str = anc → target ∈ x.all_names →
      anc ∈ ch.map name_str := by
  intro t
  induction t using inductionOn with
  | h n b cs ih =>
    intro hu ch hch x hx hxname htarget
    obtain ⟨hcu, hpair, hroot_notin⟩ := uniq_names_split hu
    have hxcases : x = PTree.node n b cs ∨ ∃ ci ∈ cs, x ∈ ci.find_clades := by
      rw [find_clades_def, List.mem_cons] at hx
      rcases hx with rfl | hx
      · exact Or.inl rfl
      · rcases List.mem_flatten.1 hx with ⟨l, hl, hxl⟩
        rcases List.mem_map.1 hl with ⟨ci, hci, rfl⟩
        exact Or.inr ⟨ci, hci, hxl⟩
    rw [find_chain_def] at hch
    by_cases hroot : name_str (.node n b cs) = target
    · rw [if_pos hroot] at hch
      cases hch
      rcases hxcases with rfl | ⟨ci, hci, hxi⟩
      · simp [hxname]
      · exfalso
        refine hroot_notin ci hci ?_
        rw [hroot]
        exact all_names_subset_of_mem hxi htarget
    · rw [if_neg hroot] at hch
      obtain ⟨chc, hfs, rfl⟩ := Option.map_eq_some'.1 hch
      obtain ⟨c, hc, hcchain⟩ := exists_of_findSome?_eq_some hfs
      have htarget_in_c : target ∈ c.all_names := find_chain_isSome_iff.1 (by rw [hcchain]; rfl)
      rcases hxcases with rfl | ⟨ci, hci, hxi⟩
      · rw [List.map_cons, ← hxname]
        exact List.mem_cons_self _ _
      · have htarget_in_ci : target ∈ ci.all_names := all_names_subset_of_mem hxi htarget
        have hcic : ci = c := by
          by_contra hne
          exact ((hpair.forall (fun _ _ hab => hab.symm)) hci hc hne) htarget_in_ci htarget_in_c
        subst hcic
        rw [List.map_cons]
        exact List.mem_cons_of_mem _ (ih ci hci (hcu ci hci) hcchain hxi hxname htarget)

theorem head?_eq_cons {α : Type _} {l : List α} {a : α} (h : l.head? = some a) :
    l = a :: l.tail := by
  cases l with
  | nil => cases h
  | cons x xs => cases h; rfl

theorem getLast?_cons_getLastD {α : Type _} (a : α) (l : List α) :
    (a :: l).getLast? = some (l.getLastD a) := by
  rw [List.getLast?_cons, List.getLastD_eq_getLast?]

theorem isAncestor_of_mem_chain {t : PTree} {q : String} {ch : List PTree}
    (hch : find_chain q t = some ch) {a : String} (ha : a ∈ ch.map name_str) :
    IsAncestor t a q := by
  obtain ⟨x, hx, rfl⟩ := List.mem_map.1 ha
  obtain ⟨hhead, ⟨lst, hlast, hname⟩, hchain, hsub⟩ := find_chain_spec hch
  refine ⟨x, hsub.subset hx, rfl, ?_⟩
  rw [← hname]
  exact List.mem_map_of_mem _ (chain_last_mem hchain hlast x hx)

theorem find_chain_extends : ∀ {t : PTree}, UniqNames t →
    ∀ {a q : String} {cha chq : List PTree} {x : PTree},
      find_chain a t = some cha → find_chain q t = some chq →
      cha.getLast? = some x → q ∈ x.all_names →
      ∃ s, chq = cha ++ s := by
  intro t
  induction t using inductionOn with
  | h n b cs ih =>
    intro hu a q cha chq x hcha hchq hlast hq
    obtain ⟨hcu, hpair, hroot_notin⟩ := uniq_names_split hu
    rw [find_chain_def] at hcha
    by_cases hra : name_str (.node n b cs) = a
    · rw [if_pos hra] at hcha
      cases hcha
      obtain ⟨hheadq, -, -, -⟩ := find_chain_spec hchq
      exact ⟨chq.tail, head?_eq_cons hheadq⟩
    · rw [if_neg hra] at hcha
      obtain ⟨cha2, hfs, rfl⟩ := Option.map_eq_some'.1 hcha
      obtain ⟨c, hc, hcchain⟩ := exists_of_findSome?_eq_some hfs
      have hlast2 : cha2.getLast? = some x := by
        cases cha2 with
        | nil => obtain ⟨hh, -, -, -⟩ := find_chain_spec hcchain; simp at hh
        | cons y ys => rwa [List.getLast?_cons_cons] at hlast
      obtain ⟨-, -, -, hsubc⟩ := find_chain_spec hcchain
      have hqc : q ∈ c.all_names :=
        all_names_subset_of_mem (hsubc.subset (mem_of_getLast? hlast2)) hq
      have hrq : ¬(name_str (.node n b cs) = q) := fun h => hroot_notin c hc (h ▸ hqc)
      rw [find_chain_def, if_neg hrq] at hchq
      obtain ⟨chq2, hfsq, rfl⟩ := Option.map_eq_some'.1 hchq
      obtain ⟨cq, hcq, hcqchain⟩ := exists_of_findSome?_eq_some hfsq
      have hqcq : q ∈ cq.all_names := find_chain_isSome_iff.1 (by rw [hcqchain]; rfl)
      have hceq : cq = c := by
        by_contra hne
        exact ((hpair.forall (fun _ _ hab => hab.symm)) hcq hc hne) hqcq hqc
      subst hceq
      obtain ⟨s, hs⟩ := ih cq hcq (hcu cq hcq) hcchain hcqchain hlast2 hq
      exact ⟨s, by rw [hs, List.cons_append]⟩

theorem find_chain_eq_of_chain : ∀ {t : PTree}, UniqNames t →
    ∀ {ch : List PTree} {lst : PTree} {a : String},
      ch.head? = some t → List.Chain' (fun p c => c ∈ p.clades) ch →
      ch.getLast? = some lst → lst.name_str = a →
      find_chain a t = some ch := by
  intro t
  induction t using inductionOn with
  | h n b cs ih =>
    intro hu ch lst a hhead hchain hlast hname
    obtain ⟨hcu, hpair, hroot_notin⟩ := uniq_names_split hu
    have hch : ch = (PTree.node n b cs) :: ch.tail := head?_eq_cons hhead
    cases htail : ch.tail with
    | nil =>
      rw [hch, htail] at hlast
      simp at hlast
      rw [hch, htail, find_chain_def, if_pos (by rw [hlast, hname])]
    | cons c0 rest =>
      rw [hch, htail] at hchain hlast
      have hc0 : c0 ∈ cs := (List.chain'_cons.1 hchain).1
      have hchain2 : List.Chain' (fun p c => c ∈ p.clades) (c0 :: rest) :=
        (List.chain'_cons.1 hchain).2
      rw [List.getLast?_cons_cons] at hlast
      have hlstc0 : lst ∈ c0.find_clades :=
        chain_last_mem hchain2 hlast c0 (List.mem_cons_self _ _)
      have hac0 : a ∈ c0.all_names := by
        rw [← hname]
        exact List.mem_map_of_mem _ hlstc0
      have hra : ¬(name_str (.node n b cs) = a) := fun h => hroot_notin c0 hc0 (h ▸ hac0)
      have hrec : find_chain a c0 = some (c0 :: rest) :=
        ih c0 hc0 (hcu c0 hc0) rfl hchain2 hlast hname
      have hothers : ∀ c2 ∈ cs, c2 ≠ c0 → find_chain a c2 = none := by
        intro c2 hc2 hne
        have hdisj : a ∉ c2.all_names :=
          fun hmem => ((hpair.forall (fun _ _ hab => hab.symm)) hc2 hc0 hne) hmem hac0
        cases hfc : find_chain a c2 with
        | none => rfl
        | some w =>
          exact absurd (find_chain_isSome_iff.1 (by rw [hfc]; rfl)) hdisj
      rw [find_chain_def, if_neg hra,
        findSome?_eq_of_unique hc0 hrec hothers]
      rw [hch, htail]
      rfl

theorem lcp_upper : ∀ (p0 : List String) (ps : List (List String)),
    (∃ s, p0 = lcp_with p0 ps ++ s)
      ∧ ∀ q ∈ ps, ∃ s, q = lcp_with p0 ps ++ s := by
  intro p0
  induction p0 with
  | nil => intro ps; exact ⟨⟨[], rfl⟩, fun q _ => ⟨q, rfl⟩⟩
  | cons h hs ih =>
    intro ps
    by_cases hall : ps.all (fun l => l.head? = some h) = true
    · have hL : lcp_with (h :: hs) ps = h :: lcp_with hs (ps.map List.tail) := by
        simp only [lcp_with]
        rw [if_pos hall]
      obtain ⟨⟨s0, hs0⟩, hrest⟩ := ih (ps.map List.tail)
      rw [hL]
      constructor
      · exact ⟨s0, by rw [List.cons_append, ← hs0]⟩
      · intro q hq
        have hqh : q.head? = some h := by
          have := List.all_eq_true.1 hall q hq
          simpa using this
        obtain ⟨s, hsq⟩ := hrest q.tail (List.mem_map_of_mem _ hq)
        exact ⟨s, by rw [head?_eq_cons hqh, hsq, List.cons_append]⟩
    · have hL : lcp_with (h :: hs) ps = [] := by
        simp only [lcp_with]
        rw [if_neg hall]
      rw [hL]
      exact ⟨⟨h :: hs, rfl⟩, fun q _ => ⟨q, rfl⟩⟩

theorem lcp_lower : ∀ (P p0 : List String) (ps : List (List String)),
    (∃ s, p0 = P ++ s) → (∀ q ∈ ps, ∃ s, q = P ++ s) →
    ∃ s, lcp_with p0 ps = P ++ s := by
  intro P
  induction P with
  | nil => intro p0 ps _ _; exact ⟨lcp_with p0 ps, rfl⟩
  | cons h P2 ih =>
    intro p0 ps h0 hps
    obtain ⟨s0, rfl⟩ := h0
    have hall : ps.all (fun l => l.head? = some h) = true := by
      rw [List.all_eq_true]
      intro q hq
      obtain ⟨s, rfl⟩ := hps q hq
      simp
    have hL : lcp_with ((h :: P2) ++ s0) ps = h :: lcp_with (P2 ++ s0) (ps.map List.tail) := by
      rw [List.cons_append]
      simp only [lcp_with]
      rw [if_pos hall]
    have htails : ∀ q ∈ ps.map List.tail, ∃ s, q = P2 ++ s := by
      intro q hq
      obtain ⟨q2, hq2, rfl⟩ := List.mem_map.1 hq
      obtain ⟨s, rfl⟩ := hps q2 hq2
      exact ⟨s, rfl⟩
    obtain ⟨s, hs⟩ := ih (P2 ++ s0) (ps.map List.tail) ⟨s0, rfl⟩ htails
    rw [hL, hs]
    exact ⟨s, by rw [List.cons_append]⟩

theorem forall2_mem_left {α β : Type _} {R : α → β → Prop} :
    ∀ {l1 : List α} {l2 : List β}, List.Forall₂ R l1 l2 → ∀ a ∈ l1, ∃ b ∈ l2, R a b := by
  intro l1 l2 h
  induction h with
  | nil => intro a ha; cases ha
  | cons hr hf ih =>
    intro a ha
    rcases List.mem_cons.1 ha with rfl | ha
    · exact ⟨_, List.mem_cons_self _ _, hr⟩
    · obtain ⟨b, hb, hrb⟩ := ih a ha
      exact ⟨b, List.mem_cons_of_mem _ hb, hrb⟩

theorem forall2_mem_right {α β : Type _} {R : α → β → Prop} :
    ∀ {l1 : List α} {l2 : List β}, List.Forall₂ R l1 l2 → ∀ b ∈ l2, ∃ a ∈ l1, R a b := by
  intro l1 l2 h
  induction h with
  | nil => intro b hb; cases hb
  | cons hr hf ih =>
    intro b hb
    rcases List.mem_cons.1 hb with rfl | hb
    · exact ⟨_, List.mem_cons_self _ _, hr⟩
    · obtain ⟨a, ha, hra⟩ := ih b hb
      exact ⟨a, List.mem_cons_of_mem _ ha, hra⟩

theorem get_paths_forall2 {t : PTree} : ∀ {qs : List String},
    (∀ q ∈ qs, q ∈ t.all_names) →
    ∃ pss, get_paths t qs = some pss ∧
      List.Forall₂ (fun q p => ∃ ch, find_chain q t = some ch ∧ p = ch.tail.map name_str)
        qs pss := by
  intro qs
  induction qs with
  | nil => intro _; exact ⟨[], rfl, List.Forall₂.nil⟩
  | cons q rest ih =>
    intro hmem
    obtain ⟨ch, hch⟩ := Option.isSome_iff_exists.1
      (find_chain_isSome_iff.2 (hmem q (List.mem_cons_self _ _)))
    obtain ⟨pss, hpss, hf2⟩ := ih (fun q2 hq2 => hmem q2 (List.mem_cons_of_mem _ hq2))
    have hgp : get_path t q = some ch.tail := by rw [get_path, hch]; rfl
    refine ⟨ch.tail.map name_str :: pss, ?_, List.Forall₂.cons ⟨ch, hch, rfl⟩ hf2⟩
    simp only [get_paths, hgp, hpss, Option.map_some']
/-- C6: `_search_target_node_name` returns a single existing node name
unchanged; a list of existing node names resolves to the name of the
Bio.Phylo `common_ancestor`, which is an ancestor (in the subtree sense
of `IsAncestor`) of every queried node and is the deepest such node:
every common ancestor of all the queried nodes is an ancestor of it. -/
theorem mrca_resolution {t : PTree} (hu : UniqNames t) :
    (∀ s ∈ t.all_node_labels, search_target_node_name t (.one s) = .ok s)
    ∧ ∀ (q0 : String) (qrest : List String),
        (∀ q ∈ q0 :: qrest, q ∈ t.all_node_labels) →
        ∃ m, search_target_node_name t (.many (q0 :: qrest)) = .ok m
          ∧ (∀ q ∈ q0 :: qrest, IsAncestor t m q)
          ∧ ∀ a, (∀ q ∈ q0 :: qrest, IsAncestor t a q) → IsAncestor t a m := by
  constructor
  · intro s hs
    have hmiss1 : missing_names t (.one s) = [] := by
      simp only [missing_names, query_names]
      rw [List.filter_eq_nil_iff]
      intro q hq
      rcases List.mem_singleton.1 hq with rfl
      simpa using hs
    rw [search_target_node_name, hmiss1]
  · intro q0 qrest hmem
    have hnames : ∀ q ∈ q0 :: qrest, q ∈ t.all_names :=
      fun q hq => mem_all_node_labels.1 (hmem q hq)
    obtain ⟨pss, hget, hf2⟩ := get_paths_forall2 hnames
    obtain ⟨P0, Ps, rfl⟩ : ∃ P0 Ps, pss = P0 :: Ps := by
      cases hf2 with
      | cons hr hf => exact ⟨_, _, rfl⟩
    have hmiss : missing_names t (.many (q0 :: qrest)) = [] := by
      simp only [missing_names, query_names]
      rw [List.filter_eq_nil_iff]
      intro q hq
      simpa using hmem q hq
    have hca : common_ancestor t (q0 :: qrest) = some ((lcp_with P0 Ps).getLastD t.name_str) := by
      rw [common_ancestor, hget]
    refine ⟨(lcp_with P0 Ps).getLastD t.name_str, ?_, ?_, ?_⟩
    · rw [search_target_node_name, hmiss]
      simp only [hca]
    · -- the returned name lies on every query chain
      intro q hq
      obtain ⟨p, hp, ch, hch, rfl⟩ := forall2_mem_left hf2 q hq
      obtain ⟨hhead, -, -, -⟩ := find_chain_spec hch
      have hchcons : ch = t :: ch.tail := head?_eq_cons hhead
      have hup : ∃ s, ch.tail.map name_str = lcp_with P0 Ps ++ s := by
        obtain ⟨⟨s0, h0⟩, hrest⟩ := lcp_upper P0 Ps
        rcases List.mem_cons.1 hp with rfl | hp2
        · exact ⟨s0, h0⟩
        · exact hrest _ hp2
      obtain ⟨s, hsp⟩ := hup
      refine isAncestor_of_mem_chain hch ?_
      rw [hchcons, List.map_cons, hsp, ← List.cons_append]
      exact List.mem_append_left _ (List.getLastD_mem_cons _ _)
    · -- every common ancestor is an ancestor of the returned name
      intro a hanc
      obtain ⟨xa, hxa, hxaname, -⟩ := hanc q0 (List.mem_cons_self _ _)
      have hasome : (find_chain a t).isSome :=
        find_chain_isSome_iff.2 (hxaname ▸ List.mem_map_of_mem _ hxa)
      obtain ⟨cha, hcha⟩ := Option.isSome_iff_exists.1 hasome
      obtain ⟨hheada, ⟨lsta, hlasta, hlname⟩, -, hsuba⟩ := find_chain_spec hcha
      have hlmem : lsta ∈ t.find_clades := hsuba.subset (mem_of_getLast? hlasta)
      have hchacons : cha = t :: cha.tail := head?_eq_cons hheada
      -- every query name sits inside the subtree of the clade named a
      have hq_in : ∀ q, IsAncestor t a q → q ∈ lsta.all_names := by
        intro q hq
        obtain ⟨x, hx, hxname, hqx⟩ := hq
        have : x = lsta := name_str_inj hu hx hlmem (by rw [hxname, hlname])
        exact this ▸ hqx
      -- so the chain to a is an initial run of every query chain
      have hpref : ∀ (q : String) (p : List String),
          (∃ ch, find_chain q t = some ch ∧ p = ch.tail.map name_str) →
          IsAncestor t a q → ∃ s, p = cha.tail.map name_str ++ s := by
        intro q p hr hq
        obtain ⟨ch, hch, rfl⟩ := hr
        obtain ⟨s, hs⟩ := find_chain_extends hu hcha hch hlasta (hq_in q hq)
        refine ⟨s.map name_str, ?_⟩
        rw [hs, hchacons]
        simp
      have hP0 : ∃ s, P0 = cha.tail.map name_str ++ s := by
        cases hf2 with
        | cons hr hf => exact hpref q0 P0 hr (hanc q0 (List.mem_cons_self _ _))
      have hPs : ∀ p ∈ Ps, ∃ s, p = cha.tail.map name_str ++ s := by
        intro p hp
        have hf2t : List.Forall₂
            (fun q p => ∃ ch, find_chain q t = some ch ∧ p = ch.tail.map name_str)
            qrest Ps := by
          cases hf2 with
          | cons hr hf => exact hf
        obtain ⟨q, hq, hr⟩ := forall2_mem_right hf2t p hp
        exact hpref q p hr (hanc q (List.mem_cons_of_mem _ hq))
      obtain ⟨s2, hs2⟩ := lcp_lower (cha.tail.map name_str) P0 Ps hP0 hPs
      -- build the chain of the returned name: the agreeing levels of q0's chain
      have hr0 : ∃ ch, find_chain q0 t = some ch ∧ P0 = ch.tail.map name_str := by
        cases hf2 with
        | cons hr hf => exact hr
      obtain ⟨ch0, hch0, hP0eq⟩ := hr0
      obtain ⟨hhead0, -, hchain0, -⟩ := find_chain_spec hch0
      have hch0cons : ch0 = t :: ch0.tail := head?_eq_cons hhead0
      obtain ⟨s0, h0⟩ := (lcp_upper P0 Ps).1
      have hunames0 : ∀ (L : List String), P0 = L ++ s0 →
          (t :: ch0.tail.take L.length).map name_str = t.name_str :: L := by
        intro L hL
        rw [List.map_cons, List.map_take, ← hP0eq, hL, List.take_left]
      have hunames := hunames0 (lcp_with P0 Ps) h0
      have huchain : List.Chain' (fun p c => c ∈ p.clades)
          (t :: ch0.tail.take (lcp_with P0 Ps).length) := by
        have hsplit : (t :: ch0.tail.take (lcp_with P0 Ps).length)
            ++ ch0.tail.drop (lcp_with P0 Ps).length = ch0 := by
          rw [List.cons_append, List.take_append_drop, ← hch0cons]
        have := hsplit ▸ hchain0
        exact this.left_of_append
      have hulast : ∃ lstu, (t :: ch0.tail.take (lcp_with P0 Ps).length).getLast? = some lstu
          ∧ lstu.name_str = (lcp_with P0 Ps).getLastD t.name_str := by
        have hmap := List.getLast?_map name_str (t :: ch0.tail.take (lcp_with P0 Ps).length)
        rw [hunames, getLast?_cons_getLastD] at hmap
        obtain ⟨lstu, hlu, hlu2⟩ := Option.map_eq_some'.1 hmap.symm
        exact ⟨lstu, hlu, hlu2⟩
      obtain ⟨lstu, hlu, hluname⟩ := hulast
      have hchm : find_chain ((lcp_with P0 Ps).getLastD t.name_str) t
          = some (t :: ch0.tail.take (lcp_with P0 Ps).length) :=
        find_chain_eq_of_chain hu rfl huchain hlu hluname
      refine isAncestor_of_mem_chain hchm ?_
      rw [hunames, hs2, ← List.cons_append]
      refine List.mem_append_left _ ?_
      -- a is the last name of its own chain
      have : a ∈ cha.map name_str := by
        rw [← hlname]
        exact List.mem_map_of_mem _ (mem_of_getLast? hlasta)
      rw [hchacons, List.map_cons] at this
      exact this

/-- Query-resolution example tree `(A,B)r;`. -/
def mrca_tree : PTree :=
  .node (some "r") none [.node (some "A") none [], .node (some "B") none []]

theorem mrca_resolution_witness :
    UniqNames mrca_tree
    ∧ ("A" ∈ mrca_tree.all_node_labels
        ∧ search_target_node_name mrca_tree (.one "A") = .ok "A")
    ∧ (∀ q ∈ "A" :: ["B"], q ∈ mrca_tree.all_node_labels)
    ∧ ∃ m, search_target_node_name mrca_tree (.many ("A" :: ["B"])) = .ok m
        ∧ (∀ q ∈ "A" :: ["B"], IsAncestor mrca_tree m q)
        ∧ ∀ a, (∀ q ∈ "A" :: ["B"], IsAncestor mrca_tree a q) → IsAncestor mrca_tree a m := by
  have hu : UniqNames mrca_tree := by
    simp [UniqNames, all_names, find_clades_def, mrca_tree, name_str, name]
  have hA : "A" ∈ mrca_tree.all_node_labels := by
    simp [all_node_labels, leaf_labels, innode_labels, get_terminals, get_nonterminals,
      find_clades_def, mrca_tree, name_str, name, is_terminal, clades]
  have hmem : ∀ q ∈ "A" :: ["B"], q ∈ mrca_tree.all_node_labels := by
    intro q hq
    rcases List.mem_cons.1 hq with rfl | hq2
    · exact hA
    · rcases List.mem_singleton.1 hq2 with rfl
      simp [all_node_labels, leaf_labels, innode_labels, get_terminals, get_nonterminals,
        find_clades_def, mrca_tree, name_str, name, is_terminal, clades]
  exact ⟨hu, ⟨hA, (mrca_resolution hu).1 "A" hA⟩, hmem, (mrca_resolution hu).2 "A" ["B"] hmem⟩

/-- The local `max_tree_depth` variable of `_to_ultrametric_tree`
(line 1073): the maximum of the unit-branch depth values. -/
def unit_max_depth (t : PTree) : ℚ :=
  list_max ((sorted_desc (depth_pairs true t)).map Prod.snd)

/-- Drop every branch length: the pure topology-plus-names skeleton. -/
def strip_bl : PTree → PTree
  | .node n _ cs => .node n none (cs.attach.map (fun c => strip_bl c.1))
termination_by t => sizeOf t
decreasing_by exact sizeOf_lt_of_mem_clades c.2

theorem strip_bl_def (n : Option String) (b : Option ℚ) (cs : List PTree) :
    strip_bl (.node n b cs) = .node n none (cs.map strip_bl) := by
  rw [strip_bl]
  congr 1
  rw [List.map_attach]
  simp

theorem strip_bl_apply_bl (f : String → Option ℚ) : ∀ (t : PTree),
    strip_bl (apply_bl f t) = strip_bl t := by
  intro t
  induction t using inductionOn with
  | h n b cs ih =>
    rw [apply_bl_def, strip_bl_def, strip_bl_def, List.map_map]
    congr 1
    exact List.map_congr_left (fun c hc => ih c hc)

theorem name_str_apply_bl (f : String → Option ℚ) (t : PTree) :
    name_str (apply_bl f t) = name_str t := by
  cases t with
  | node n b cs => rw [apply_bl_def]; rfl

theorem branch_length_apply_bl (f : String → Option ℚ) (t : PTree) :
    (apply_bl f t).branch_length = f t.name_str := by
  cases t with
  | node n b cs => rw [apply_bl_def]; rfl

theorem findSome?_congr {α β : Type _} {f g : α → Option β} :
    ∀ {l : List α}, (∀ a ∈ l, f a = g a) → l.findSome? f = l.findSome? g := by
  intro l
  induction l with
  | nil => intro _; rfl
  | cons x xs ih =>
    intro h
    rw [List.findSome?_cons, List.findSome?_cons, h x (List.mem_cons_self _ _),
      ih (fun a ha => h a (List.mem_cons_of_mem _ ha))]

theorem findSome?_option_map {α β γ : Type _} (f : α → Option β) (h : β → γ) :
    ∀ (l : List α), l.findSome? (fun a => (f a).map h) = (l.findSome? f).map h := by
  intro l
  induction l with
  | nil => rfl
  | cons x xs ih =>
    rw [List.findSome?_cons, List.findSome?_cons]
    cases hfx : f x with
    | none => simpa using ih
    | some b => simp

theorem find_chain_apply_bl (target : String) (f : String → Option ℚ) :
    ∀ (t : PTree), find_chain target (apply_bl f t)
      = (find_chain target t).map (List.map (apply_bl f)) := by
  intro t
  induction t using inductionOn with
  | h n b cs ih =>
    rw [apply_bl_def, find_chain_def]
    have hname : name_str (.node n (f (name_str (.node n b cs))) (cs.map (apply_bl f)))
        = name_str (.node n b cs) := rfl
    rw [hname]
    by_cases hm : name_str (.node n b cs) = target
    · rw [if_pos hm, find_chain_def, if_pos hm, Option.map_some', List.map_singleton,
        apply_bl_def]
    · rw [if_neg hm, find_chain_def, if_neg hm]
      rw [List.findSome?_map]
      have hcomp : cs.findSome? (find_chain target ∘ apply_bl f)
          = cs.findSome? (fun c => (find_chain target c).map (List.map (apply_bl f))) :=
        findSome?_congr (fun c hc => ih c hc)
      rw [hcomp, findSome?_option_map]
      cases cs.findSome? (find_chain target) with
      | none => rfl
      | some ch => simp [apply_bl_def]

theorem distance_apply_bl (f : String → Option ℚ) (t : PTree) (nm : String)
    {ch : List PTree} (hch : find_chain nm t = some ch) :
    distance (apply_bl f t) nm
      = ((ch.tail.map name_str).map (fun x => (f x).getD 0)).sum := by
  unfold distance get_path
  rw [find_chain_apply_bl, hch, Option.map_some', Option.map_some', Option.getD_some,
    ← List.map_tail, List.map_map, List.map_map]
  congr 1
  refine List.map_congr_left ?_
  intro c hc
  show (apply_bl f c).branch_length.getD 0 = (f c.name_str).getD 0
  rw [branch_length_apply_bl]

theorem insert_desc_perm (x : String × ℚ) : ∀ (l : List (String × ℚ)),
    List.Perm (insert_desc x l) (x :: l) := by
  intro l
  induction l with
  | nil => exact List.Perm.refl _
  | cons y ys ih =>
    rw [insert_desc]
    by_cases h : x.2 ≤ y.2
    · rw [if_pos h]
      exact (List.Perm.cons y ih).trans (List.Perm.swap x y ys)
    · rw [if_neg h]

theorem foldl_insert_desc_perm : ∀ (l acc : List (String × ℚ)),
    List.Perm (l.foldl (fun acc x => insert_desc x acc) acc) (l ++ acc) := by
  intro l
  induction l with
  | nil => intro acc; exact List.Perm.refl _
  | cons x xs ih =>
    intro acc
    rw [List.foldl_cons]
    exact ((ih (insert_desc x acc)).trans
      ((insert_desc_perm x acc).append_left xs)).trans List.perm_middle

theorem sorted_desc_perm (l : List (String × ℚ)) : List.Perm (sorted_desc l) l := by
  have := foldl_insert_desc_perm l []
  rw [List.append_nil] at this
  exact this

theorem insert_desc_pairwise {x : String × ℚ} : ∀ {l : List (String × ℚ)},
    l.Pairwise (fun a b => b.2 ≤ a.2) → (insert_desc x l).Pairwise (fun a b => b.2 ≤ a.2) := by
  intro l
  induction l with
  | nil => intro _; simp [insert_desc]
  | cons y ys ih =>
    intro hp
    rw [List.pairwise_cons] at hp
    rw [insert_desc]
    by_cases h : x.2 ≤ y.2
    · rw [if_pos h, List.pairwise_cons]
      refine ⟨?_, ih hp.2⟩
      intro z hz
      rcases List.mem_cons.1 ((insert_desc_perm x ys).mem_iff.1 hz) with rfl | hz2
      · exact h
      · exact hp.1 z hz2
    · rw [if_neg h, List.pairwise_cons]
      refine ⟨?_, List.pairwise_cons.2 hp⟩
      intro z hz
      rcases List.mem_cons.1 hz with rfl | hz2
      · exact le_of_lt (lt_of_not_le h)
      · exact le_trans (hp.1 z hz2) (le_of_lt (lt_of_not_le h))

theorem foldl_insert_desc_pairwise : ∀ (l acc : List (String × ℚ)),
    acc.Pairwise (fun a b => b.2 ≤ a.2) →
    (l.foldl (fun acc x => insert_desc x acc) acc).Pairwise (fun a b => b.2 ≤ a.2) := by
  intro l
  induction l with
  | nil => intro acc h; exact h
  | cons x xs ih =>
    intro acc h
    rw [List.foldl_cons]
    exact ih (insert_desc x acc) (insert_desc_pairwise h)

theorem sorted_desc_pairwise (l : List (String × ℚ)) :
    (sorted_desc l).Pairwise (fun a b => b.2 ≤ a.2) :=
  foldl_insert_desc_pairwise l [] (List.Pairwise.nil)

theorem foldl_max_bound : ∀ (xs : List ℚ) (a : ℚ),
    a ≤ xs.foldl max a ∧ ∀ x ∈ xs, x ≤ xs.foldl max a := by
  intro xs
  induction xs with
  | nil => intro a; exact ⟨le_refl a, by intro x hx; cases hx⟩
  | cons y ys ih =>
    intro a
    rw [List.foldl_cons]
    refine ⟨le_trans (le_max_left a y) (ih (max a y)).1, ?_⟩
    intro x hx
    rcases List.mem_cons.1 hx with rfl | hx2
    · exact le_trans (le_max_right a x) (ih (max a x)).1
    · exact (ih (max a y)).2 x hx2

theorem list_max_ub {l : List ℚ} {x : ℚ} (hx : x ∈ l) : x ≤ list_max l := by
  cases l with
  | nil => cases hx
  | cons y ys =>
    rw [list_max]
    rcases List.mem_cons.1 hx with rfl | hx2
    · exact (foldl_max_bound ys x).1
    · exact (foldl_max_bound ys y).2 x hx2

theorem sum_fill (c : ℚ) (bl : String → Option ℚ) : ∀ (l : List String),
    (l.map (fun x => (if bl x = none then some c else bl x).getD 0)).sum
      = (l.map (fun x => (bl x).getD 0)).sum
        + ((l.length : ℚ) - ((l.filter (fun x => (bl x).isSome)).length : ℚ)) * c := by
  intro l
  induction l with
  | nil => simp
  | cons x xs ih =>
    cases hbl : bl x with
    | none =>
      simp only [List.map_cons, List.sum_cons, hbl, List.length_cons, List.filter_cons, ih]
      simp only [Option.isSome_none, Bool.false_eq_true, if_false]
      norm_num
      push_cast
      ring
    | some v =>
      simp only [List.map_cons, List.sum_cons, hbl, List.length_cons, List.filter_cons,
        Option.isSome_some, if_true, Option.getD_some, List.length_cons, ih]
      have : ¬((some v : Option ℚ) = none) := by simp
      rw [if_neg this]
      simp only [Option.getD_some, List.length_cons]
      push_cast
      ring

theorem sum_map_one (l : List String) : (l.map (fun _ => (1 : ℚ))).sum = (l.length : ℚ) := by
  induction l with
  | nil => simp
  | cons x xs ih =>
    rw [List.map_cons, List.sum_cons, ih, List.length_cons]
    push_cast
    ring

theorem chain_nonlast {R : PTree → PTree → Prop} :
    ∀ {ch : List PTree}, List.Chain' R ch → ∀ {lst : PTree}, ch.getLast? = some lst →
      ∀ x ∈ ch, x = lst ∨ ∃ y, R x y := by
  intro ch
  induction ch with
  | nil => intro _ lst h; simp at h
  | cons a l ih =>
    intro hch lst hlast x hx
    cases l with
    | nil =>
      simp at hlast
      rcases List.mem_singleton.1 hx with rfl
      exact Or.inl hlast
    | cons b l2 =>
      rw [List.getLast?_cons_cons] at hlast
      rcases List.mem_cons.1 hx with rfl | hx2
      · exact Or.inr ⟨b, (List.chain'_cons.1 hch).1⟩
      · exact ih (List.chain'_cons.1 hch).2 hlast x hx2

theorem chain_terminal_name {t : PTree} {nm : String} {ch : List PTree}
    (hch : find_chain nm t = some ch) {e : PTree} (he : e ∈ ch)
    (hterm : e.is_terminal = true) : e.name_str = nm := by
  obtain ⟨-, ⟨lst, hlast, hname⟩, hchain, -⟩ := find_chain_spec hch
  rcases chain_nonlast hchain hlast e he with rfl | ⟨y, hy⟩
  · exact hname
  · exfalso
    unfold is_terminal at hterm
    rw [List.isEmpty_iff] at hterm
    rw [hterm] at hy
    cases hy

theorem mem_tail_of_getLast? {a x : PTree} : ∀ {l : List PTree},
    (a :: l).getLast? = some x → l ≠ [] → x ∈ l := by
  intro l
  cases l with
  | nil => intro _ h; exact absurd rfl h
  | cons b l2 =>
    intro hlast _
    rw [List.getLast?_cons_cons] at hlast
    exact mem_of_getLast? hlast

theorem filter_length_lt {p : String → Bool} {a : String} : ∀ {l : List String},
    a ∈ l → p a = false → (l.filter p).length < l.length := by
  intro l
  induction l with
  | nil => intro h; cases h
  | cons x xs ih =>
    intro ha hpa
    rw [List.filter_cons, List.length_cons]
    rcases List.mem_cons.1 ha with rfl | ha2
    · rw [hpa]
      exact Nat.lt_succ_of_le (List.length_filter_le p xs)
    · cases hpx : p x with
      | false =>
        simp only [Bool.false_eq_true, if_false]
        exact Nat.lt_succ_of_lt (ih ha2 hpa)
      | true =>
        simp only [if_true, List.length_cons]
        exact Nat.succ_lt_succ (ih ha2 hpa)

theorem depth_pairs_terminal {t : PTree} (ht : t.is_terminal = true) :
    depth_pairs true t = [(t.name_str, t.branch_length.getD 0)]
    ∧ unit_max_depth t = t.branch_length.getD 0 := by
  cases t with
  | node n b cs =>
    unfold is_terminal at ht
    rw [List.isEmpty_iff] at ht
    subst ht
    have h1 : depth_pairs true (.node n b [])
        = [(name_str (.node n b []), (branch_length (.node n b [])).getD 0)] := by
      rw [depth_pairs, depth_pairs_from_def]
      rfl
    refine ⟨h1, ?_⟩
    rw [unit_max_depth, h1]
    simp [sorted_desc, insert_desc, list_max]

theorem depth_pairs_keys (t : PTree) :
    (depth_pairs true t).map Prod.fst = t.all_names := by
  rw [depth_pairs]
  exact depth_pairs_from_keys true t _

theorem ultra_loop_low {t : PTree} (hu : UniqNames t) {maxD : ℚ}
    (hmaxD : maxD = unit_max_depth t) :
    ∀ (rest : List (String × ℚ)) (bl : String → Option ℚ),
      (∀ p ∈ rest, p ∈ depth_pairs true t) →
      ((rest.map Prod.fst).Nodup) →
      (∀ p ∈ rest, p.2 ≠ maxD) →
      (∀ p ∈ rest, ∀ nd, find_first t p.1 = some nd → nd.is_terminal = true → nd ≠ t →
        bl p.1 = none) →
      ∃ out, ultra_loop t maxD rest bl = some out
        ∧ (∀ x v, bl x = some v → out x = some v)
        ∧ ∀ p ∈ rest, ∀ ch, find_chain p.1 t = some ch → ∀ lst, ch.getLast? = some lst →
            lst.is_terminal = true →
            ((ch.tail.map name_str).map (fun x => (out x).getD 0)).sum = maxD := by
  intro rest
  induction rest with
  | nil =>
    intro bl _ _ _ _
    exact ⟨bl, rfl, fun x v h => h, fun p hp => absurd hp (List.not_mem_nil p)⟩
  | cons hd rest ih =>
    intro bl hmem hnodup hne hB
    obtain ⟨nm, d⟩ := hd
    rw [List.map_cons, List.nodup_cons] at hnodup
    have hnm_names : nm ∈ t.all_names := by
      have := List.mem_map_of_mem Prod.fst (hmem (nm, d) (List.mem_cons_self _ _))
      rwa [depth_pairs_keys] at this
    obtain ⟨ch, hch⟩ := Option.isSome_iff_exists.1 (find_chain_isSome_iff.2 hnm_names)
    obtain ⟨hhead, ⟨lst, hlast, hlname⟩, hchain, hsub⟩ := find_chain_spec hch
    have hff : find_first t nm = some lst := by
      rw [find_first, hch]
      exact hlast
    have hgp : get_path t nm = some ch.tail := by
      rw [get_path, hch]
      rfl
    have hne_head : ¬(d = maxD) := hne (nm, d) (List.mem_cons_self _ _)
    cases hterm : lst.is_terminal with
    | false =>
      obtain ⟨out, hout, hpres, hsums⟩ := ih bl
        (fun p hp => hmem p (List.mem_cons_of_mem (nm, d) hp)) hnodup.2
        (fun p hp => hne p (List.mem_cons_of_mem (nm, d) hp))
        (fun p hp => hB p (List.mem_cons_of_mem (nm, d) hp))
      refine ⟨out, ?_, hpres, ?_⟩
      · rw [ultra_loop, hff]
        simp only [hterm, Bool.false_eq_true, if_false]
        exact hout
      · intro p hp ch2 hch2 lst2 hlast2 hterm2
        rcases List.mem_cons.1 hp with rfl | hp2
        · rw [hch] at hch2
          injection hch2 with h2
          subst h2
          rw [hlast] at hlast2
          injection hlast2 with h3
          subst h3
          rw [hterm] at hterm2
          cases hterm2
        · exact hsums p hp2 ch2 hch2 lst2 hlast2 hterm2
    | true =>
      have hlst_ne : lst ≠ t := by
        intro heq
        have htterm : t.is_terminal = true := heq ▸ hterm
        obtain ⟨hdp, hmx⟩ := depth_pairs_terminal htterm
        have hhd := hmem (nm, d) (List.mem_cons_self _ _)
        rw [hdp, List.mem_singleton, Prod.mk.injEq] at hhd
        exact hne_head (by rw [hhd.2, hmaxD, hmx])
      have hchcons : ch = t :: ch.tail := head?_eq_cons hhead
      have htail_ne : ch.tail ≠ [] := by
        intro h0
        rw [hchcons, h0] at hlast
        simp at hlast
        exact hlst_ne hlast.symm
      have hlst_tail : lst ∈ ch.tail := by
        rw [hchcons] at hlast
        exact mem_tail_of_getLast? hlast htail_ne
      have hnm_pnames : nm ∈ ch.tail.map name_str := by
        rw [← hlname]
        exact List.mem_map_of_mem _ hlst_tail
      have hbl_nm : bl nm = none :=
        hB (nm, d) (List.mem_cons_self _ _) lst hff hterm hlst_ne
      have hcnt : ((ch.tail.map name_str).filter (fun x => (bl x).isSome)).length
          < (ch.tail.map name_str).length :=
        filter_length_lt hnm_pnames (by rw [hbl_nm]; rfl)
      have hguard : ¬((ch.tail.map name_str).length
          = ((ch.tail.map name_str).filter (fun x => (bl x).isSome)).length) :=
        Nat.ne_of_gt hcnt
      have hB2 : ∀ p ∈ rest, ∀ nd, find_first t p.1 = some nd → nd.is_terminal = true →
          nd ≠ t →
          (if p.1 ∈ ch.tail.map name_str ∧ bl p.1 = none
            then some ((maxD - ((ch.tail.map name_str).map (fun y => (bl y).getD 0)).sum)
              / (((ch.tail.map name_str).length : ℚ)
                - (((ch.tail.map name_str).filter (fun y => (bl y).isSome)).length : ℚ)))
            else bl p.1) = none := by
        intro p hp nd hnd htm hnet
        have hblp : bl p.1 = none := hB p (List.mem_cons_of_mem (nm, d) hp) nd hnd htm hnet
        have hnotin : p.1 ∉ ch.tail.map name_str := by
          intro hmem_p
          obtain ⟨e, he, hename⟩ := List.mem_map.1 hmem_p
          have he_ch : e ∈ ch := hchcons ▸ List.mem_cons_of_mem _ he
          have he_fc : e ∈ t.find_clades := hsub.subset he_ch
          have hnd_fc : nd ∈ t.find_clades := (find_first_mem hnd).1
          have hnd_name : nd.name_str = p.1 := (find_first_mem hnd).2
          have hnde : nd = e := name_str_inj hu hnd_fc he_fc (by rw [hnd_name, hename])
          have heterm : e.is_terminal = true := hnde ▸ htm
          have hp1nm : p.1 = nm := by
            rw [← hename]
            exact chain_terminal_name hch he_ch heterm
          exact hnodup.1 (List.mem_map.2 ⟨p, hp, hp1nm⟩)
        have hcond : ¬(p.1 ∈ ch.tail.map name_str ∧ bl p.1 = none) := fun hc => hnotin hc.1
        rw [if_neg hcond]
        exact hblp
      obtain ⟨out, hout, hpres, hsums⟩ := ih
        (fun x => if x ∈ ch.tail.map name_str ∧ bl x = none
          then some ((maxD - ((ch.tail.map name_str).map (fun y => (bl y).getD 0)).sum)
            / (((ch.tail.map name_str).length : ℚ)
              - (((ch.tail.map name_str).filter (fun y => (bl y).isSome)).length : ℚ)))
          else bl x)
        (fun p hp => hmem p (List.mem_cons_of_mem (nm, d) hp)) hnodup.2
        (fun p hp => hne p (List.mem_cons_of_mem (nm, d) hp)) hB2
      have hpres0 : ∀ x v, bl x = some v → out x = some v := by
        intro x v hxv
        refine hpres x v ?_
        have hcond : ¬(x ∈ ch.tail.map name_str ∧ bl x = none) := by
          rintro ⟨-, h0⟩
          rw [h0] at hxv
          cases hxv
        show (if x ∈ ch.tail.map name_str ∧ bl x = none
            then some ((maxD - ((ch.tail.map name_str).map (fun y => (bl y).getD 0)).sum)
              / (((ch.tail.map name_str).length : ℚ)
                - (((ch.tail.map name_str).filter (fun y => (bl y).isSome)).length : ℚ)))
            else bl x) = some v
        rw [if_neg hcond]
        exact hxv
      have hfill : ∀ x ∈ ch.tail.map name_str, (out x).getD 0
          = ((if bl x = none
              then some ((maxD - ((ch.tail.map name_str).map (fun y => (bl y).getD 0)).sum)
                / (((ch.tail.map name_str).length : ℚ)
                  - (((ch.tail.map name_str).filter (fun y => (bl y).isSome)).length : ℚ)))
              else bl x)).getD 0 := by
        intro x hx
        cases hbx : bl x with
        | none =>
          have hbl2 : (if x ∈ ch.tail.map name_str ∧ bl x = none
              then some ((maxD - ((ch.tail.map name_str).map (fun y => (bl y).getD 0)).sum)
                / (((ch.tail.map name_str).length : ℚ)
                  - (((ch.tail.map name_str).filter (fun y => (bl y).isSome)).length : ℚ)))
              else bl x)
              = some ((maxD - ((ch.tail.map name_str).map (fun y => (bl y).getD 0)).sum)
                / (((ch.tail.map name_str).length : ℚ)
                  - (((ch.tail.map name_str).filter (fun y => (bl y).isSome)).length : ℚ))) :=
            if_pos ⟨hx, hbx⟩
          rw [hpres x _ hbl2]
          simp
        | some v =>
          rw [hpres0 x v hbx]
          simp
      have hden : (((ch.tail.map name_str).length : ℚ)
          - (((ch.tail.map name_str).filter (fun y => (bl y).isSome)).length : ℚ)) ≠ 0 := by
        refine sub_ne_zero_of_ne ?_
        exact_mod_cast Nat.ne_of_gt hcnt
      refine ⟨out, ?_, hpres0, ?_⟩
      · rw [ultra_loop, hff, hgp]
        simp only [hterm, if_true]
        rw [if_neg hne_head, if_neg hguard]
        exact hout
      · intro p hp ch2 hch2 lst2 hlast2 hterm2
        rcases List.mem_cons.1 hp with rfl | hp2
        · rw [hch] at hch2
          injection hch2 with h2
          subst h2
          rw [List.map_congr_left hfill, sum_fill]
          have hmul : (((ch.tail.map name_str).length : ℚ)
              - (((ch.tail.map name_str).filter (fun y => (bl y).isSome)).length : ℚ))
              * ((maxD - ((ch.tail.map name_str).map (fun y => (bl y).getD 0)).sum)
                / (((ch.tail.map name_str).length : ℚ)
                  - (((ch.tail.map name_str).filter (fun y => (bl y).isSome)).length : ℚ)))
              = maxD - ((ch.tail.map name_str).map (fun y => (bl y).getD 0)).sum := by
            rw [mul_comm]
            exact div_mul_cancel₀ _ hden
          rw [hmul]
          ring
        · exact hsums p hp2 ch2 hch2 lst2 hlast2 hterm2

theorem ultra_loop_high {t : PTree} (hu : UniqNames t) {maxD : ℚ}
    (hmaxD : maxD = unit_max_depth t) :
    ∀ (rest : List (String × ℚ)) (bl : String → Option ℚ),
      (∀ p ∈ rest, p ∈ depth_pairs true t) →
      ((rest.map Prod.fst).Nodup) →
      (rest.Pairwise (fun a b => b.2 ≤ a.2)) →
      (∀ p ∈ rest, p.2 ≤ maxD) →
      (∀ p ∈ rest, ∀ nd, find_first t p.1 = some nd → nd.is_terminal = true → nd ≠ t →
        bl p.1 = none) →
      (∀ x v, bl x = some v → v = 1 ∨ x = t.name_str) →
      ∃ out, ultra_loop t maxD rest bl = some out
        ∧ (∀ x, bl x = some 1 → out x = some 1)
        ∧ ∀ p ∈ rest, ∀ ch, find_chain p.1 t = some ch → ∀ lst, ch.getLast? = some lst →
            lst.is_terminal = true →
            (((ch.tail.map name_str).map (fun x => (out x).getD 0)).sum
              = maxD - (if p.2 = maxD then t.branch_length.getD 0 else 0))
            ∧ (p.2 = maxD → ∀ x ∈ ch.tail.map name_str, out x = some 1) := by
  intro rest
  induction rest with
  | nil =>
    intro bl _ _ _ _ _ _
    exact ⟨bl, rfl, fun x h => h, fun p hp => absurd hp (List.not_mem_nil p)⟩
  | cons hd rest ih =>
    intro bl hmem hnodup hdesc hub hB hone
    obtain ⟨nm, d⟩ := hd
    rw [List.map_cons, List.nodup_cons] at hnodup
    rw [List.pairwise_cons] at hdesc
    have hnm_names : nm ∈ t.all_names := by
      have := List.mem_map_of_mem Prod.fst (hmem (nm, d) (List.mem_cons_self _ _))
      rwa [depth_pairs_keys] at this
    obtain ⟨ch, hch⟩ := Option.isSome_iff_exists.1 (find_chain_isSome_iff.2 hnm_names)
    obtain ⟨hhead, ⟨lst, hlast, hlname⟩, hchain, hsub⟩ := find_chain_spec hch
    have hff : find_first t nm = some lst := by
      rw [find_first, hch]
      exact hlast
    have hgp : get_path t nm = some ch.tail := by
      rw [get_path, hch]
      rfl
    have hchcons : ch = t :: ch.tail := head?_eq_cons hhead
    cases hterm : lst.is_terminal with
    | false =>
      obtain ⟨out, hout, hones, hconc⟩ := ih bl
        (fun p hp => hmem p (List.mem_cons_of_mem (nm, d) hp)) hnodup.2 hdesc.2
        (fun p hp => hub p (List.mem_cons_of_mem (nm, d) hp))
        (fun p hp => hB p (List.mem_cons_of_mem (nm, d) hp)) hone
      refine ⟨out, ?_, hones, ?_⟩
      · rw [ultra_loop, hff]
        simp only [hterm, Bool.false_eq_true, if_false]
        exact hout
      · intro p hp ch2 hch2 lst2 hlast2 hterm2
        rcases List.mem_cons.1 hp with rfl | hp2
        · rw [hch] at hch2
          injection hch2 with h2
          subst h2
          rw [hlast] at hlast2
          injection hlast2 with h3
          subst h3
          rw [hterm] at hterm2
          cases hterm2
        · exact hconc p hp2 ch2 hch2 lst2 hlast2 hterm2
    | true =>
      by_cases hdm : d = maxD
      · -- maximum-depth leaf: every path clade is set to branch length 1
        have hB1 : ∀ p ∈ rest, ∀ nd, find_first t p.1 = some nd → nd.is_terminal = true →
            nd ≠ t →
            (if p.1 ∈ ch.tail.map name_str then some (1 : ℚ) else bl p.1) = none := by
          intro p hp nd hnd htm hnet
          have hblp : bl p.1 = none := hB p (List.mem_cons_of_mem (nm, d) hp) nd hnd htm hnet
          have hnotin : p.1 ∉ ch.tail.map name_str := by
            intro hmem_p
            obtain ⟨e, he, hename⟩ := List.mem_map.1 hmem_p
            have he_ch : e ∈ ch := hchcons ▸ List.mem_cons_of_mem _ he
            have he_fc : e ∈ t.find_clades := hsub.subset he_ch
            have hnd_fc : nd ∈ t.find_clades := (find_first_mem hnd).1
            have hnd_name : nd.name_str = p.1 := (find_first_mem hnd).2
            have hnde : nd = e := name_str_inj hu hnd_fc he_fc (by rw [hnd_name, hename])
            have heterm : e.is_terminal = true := hnde ▸ htm
            have hp1nm : p.1 = nm := by
              rw [← hename]
              exact chain_terminal_name hch he_ch heterm
            exact hnodup.1 (List.mem_map.2 ⟨p, hp, hp1nm⟩)
          rw [if_neg hnotin]
          exact hblp
        have hone1 : ∀ x v, (if x ∈ ch.tail.map name_str then some (1 : ℚ) else bl x) = some v
            → v = 1 ∨ x = t.name_str := by
          intro x v hxv
          by_cases hxp : x ∈ ch.tail.map name_str
          · rw [if_pos hxp] at hxv
            injection hxv with h
            exact Or.inl h.symm
          · rw [if_neg hxp] at hxv
            exact hone x v hxv
        obtain ⟨out, hout, hones, hconc⟩ := ih
          (fun x => if x ∈ ch.tail.map name_str then some (1 : ℚ) else bl x)
          (fun p hp => hmem p (List.mem_cons_of_mem (nm, d) hp)) hnodup.2 hdesc.2
          (fun p hp => hub p (List.mem_cons_of_mem (nm, d) hp)) hB1 hone1
        have hones0 : ∀ x, bl x = some 1 → out x = some 1 := by
          intro x hx1
          refine hones x ?_
          show (if x ∈ ch.tail.map name_str then some (1 : ℚ) else bl x) = some 1
          by_cases hxp : x ∈ ch.tail.map name_str
          · rw [if_pos hxp]
          · rw [if_neg hxp]
            exact hx1
        have hall1 : ∀ x ∈ ch.tail.map name_str, out x = some 1 := by
          intro x hx
          refine hones x ?_
          show (if x ∈ ch.tail.map name_str then some (1 : ℚ) else bl x) = some 1
          rw [if_pos hx]
        refine ⟨out, ?_, hones0, ?_⟩
        · rw [ultra_loop, hff, hgp]
          simp only [hterm, if_true]
          rw [if_pos hdm]
          exact hout
        · intro p hp ch2 hch2 lst2 hlast2 hterm2
          rcases List.mem_cons.1 hp with rfl | hp2
          · rw [hch] at hch2
            injection hch2 with h2
            subst h2
            dsimp only
            rw [if_pos hdm]
            constructor
            · have hcongr : (ch.tail.map name_str).map (fun x => (out x).getD 0)
                  = (ch.tail.map name_str).map (fun _ => (1 : ℚ)) :=
                List.map_congr_left (fun x hx => by rw [hall1 x hx]; rfl)
              rw [hcongr, sum_map_one, List.length_map]
              -- d = base + path length
              have hmemhd := hmem (nm, d) (List.mem_cons_self _ _)
              rw [depth_pairs] at hmemhd
              obtain ⟨ch3, hch3, hd3⟩ := depth_pairs_from_chain true hu hmemhd
              rw [hch] at hch3
              injection hch3 with h4
              subst h4
              have hsum1 : ((ch.tail.map (fun c =>
                  if true = true then (1 : ℚ) else c.branch_length.getD 0)).sum)
                  = (ch.tail.length : ℚ) := by
                have : (ch.tail.map (fun c =>
                    if true = true then (1 : ℚ) else c.branch_length.getD 0))
                    = ch.tail.map (fun _ => (1 : ℚ)) :=
                  List.map_congr_left (fun c hc => by rw [if_pos rfl])
                rw [this]
                have := sum_map_one (ch.tail.map name_str)
                rw [List.length_map] at this
                rw [← this, List.map_map]
                rfl
              rw [hsum1] at hd3
              rw [← hdm, hd3]
              ring
            · intro _
              exact hall1
          · obtain ⟨hs, ho⟩ := hconc p hp2 ch2 hch2 lst2 hlast2 hterm2
            exact ⟨hs, ho⟩
      · -- below the maximum: remaining pairs are all strictly below too
        have hlst_ne : lst ≠ t := by
          intro heq
          have htterm : t.is_terminal = true := heq ▸ hterm
          obtain ⟨hdp, hmx⟩ := depth_pairs_terminal htterm
          have hhd := hmem (nm, d) (List.mem_cons_self _ _)
          rw [hdp, List.mem_singleton, Prod.mk.injEq] at hhd
          exact hdm (by rw [hhd.2, hmaxD, hmx])
        have htail_ne : ch.tail ≠ [] := by
          intro h0
          rw [hchcons, h0] at hlast
          simp at hlast
          exact hlst_ne hlast.symm
        have hlst_tail : lst ∈ ch.tail := by
          rw [hchcons] at hlast
          exact mem_tail_of_getLast? hlast htail_ne
        have hnm_pnames : nm ∈ ch.tail.map name_str := by
          rw [← hlname]
          exact List.mem_map_of_mem _ hlst_tail
        have hbl_nm : bl nm = none :=
          hB (nm, d) (List.mem_cons_self _ _) lst hff hterm hlst_ne
        have hcnt : ((ch.tail.map name_str).filter (fun x => (bl x).isSome)).length
            < (ch.tail.map name_str).length :=
          filter_length_lt hnm_pnames (by rw [hbl_nm]; rfl)
        have hguard : ¬((ch.tail.map name_str).length
            = ((ch.tail.map name_str).filter (fun x => (bl x).isSome)).length) :=
          Nat.ne_of_gt hcnt
        have hlow : ∀ p ∈ rest, p.2 ≠ maxD := by
          intro p hp
          have h1 : p.2 ≤ d := hdesc.1 p hp
          have h2 : d < maxD := lt_of_le_of_ne (hub (nm, d) (List.mem_cons_self _ _)) hdm
          exact ne_of_lt (lt_of_le_of_lt h1 h2)
        have hB2 : ∀ p ∈ rest, ∀ nd, find_first t p.1 = some nd → nd.is_terminal = true →
            nd ≠ t →
            (if p.1 ∈ ch.tail.map name_str ∧ bl p.1 = none
              then some ((maxD - ((ch.tail.map name_str).map (fun y => (bl y).getD 0)).sum)
                / (((ch.tail.map name_str).length : ℚ)
                  - (((ch.tail.map name_str).filter (fun y => (bl y).isSome)).length : ℚ)))
              else bl p.1) = none := by
          intro p hp nd hnd htm hnet
          have hblp : bl p.1 = none := hB p (List.mem_cons_of_mem (nm, d) hp) nd hnd htm hnet
          have hnotin : p.1 ∉ ch.tail.map name_str := by
            intro hmem_p
            obtain ⟨e, he, hename⟩ := List.mem_map.1 hmem_p
            have he_ch : e ∈ ch := hchcons ▸ List.mem_cons_of_mem _ he
            have he_fc : e ∈ t.find_clades := hsub.subset he_ch
            have hnd_fc : nd ∈ t.find_clades := (find_first_mem hnd).1
            have hnd_name : nd.name_str = p.1 := (find_first_mem hnd).2
            have hnde : nd = e := name_str_inj hu hnd_fc he_fc (by rw [hnd_name, hename])
            have heterm : e.is_terminal = true := hnde ▸ htm
            have hp1nm : p.1 = nm := by
              rw [← hename]
              exact chain_terminal_name hch he_ch heterm
            exact hnodup.1 (List.mem_map.2 ⟨p, hp, hp1nm⟩)
          have hcond : ¬(p.1 ∈ ch.tail.map name_str ∧ bl p.1 = none) := fun hc => hnotin hc.1
          rw [if_neg hcond]
          exact hblp
        obtain ⟨out, hout, hpresL, hsumsL⟩ := ultra_loop_low hu hmaxD rest
          (fun x => if x ∈ ch.tail.map name_str ∧ bl x = none
            then some ((maxD - ((ch.tail.map name_str).map (fun y => (bl y).getD 0)).sum)
              / (((ch.tail.map name_str).length : ℚ)
                - (((ch.tail.map name_str).filter (fun y => (bl y).isSome)).length : ℚ)))
            else bl x)
          (fun p hp => hmem p (List.mem_cons_of_mem (nm, d) hp)) hnodup.2 hlow hB2
        have hpres0 : ∀ x v, bl x = some v → out x = some v := by
          intro x v hxv
          refine hpresL x v ?_
          have hcond : ¬(x ∈ ch.tail.map name_str ∧ bl x = none) := by
            rintro ⟨-, h0⟩
            rw [h0] at hxv
            cases hxv
          show (if x ∈ ch.tail.map name_str ∧ bl x = none
              then some ((maxD - ((ch.tail.map name_str).map (fun y => (bl y).getD 0)).sum)
                / (((ch.tail.map name_str).length : ℚ)
                  - (((ch.tail.map name_str).filter (fun y => (bl y).isSome)).length : ℚ)))
              else bl x) = some v
          rw [if_neg hcond]
          exact hxv
        have hfill : ∀ x ∈ ch.tail.map name_str, (out x).getD 0
            = ((if bl x = none
                then some ((maxD - ((ch.tail.map name_str).map (fun y => (bl y).getD 0)).sum)
                  / (((ch.tail.map name_str).length : ℚ)
                    - (((ch.tail.map name_str).filter (fun y => (bl y).isSome)).length : ℚ)))
                else bl x)).getD 0 := by
          intro x hx
          cases hbx : bl x with
          | none =>
            have hbl2 : (if x ∈ ch.tail.map name_str ∧ bl x = none
                then some ((maxD - ((ch.tail.map name_str).map (fun y => (bl y).getD 0)).sum)
                  / (((ch.tail.map name_str).length : ℚ)
                    - (((ch.tail.map name_str).filter (fun y => (bl y).isSome)).length : ℚ)))
                else bl x)
                = some ((maxD - ((ch.tail.map name_str).map (fun y => (bl y).getD 0)).sum)
                  / (((ch.tail.map name_str).length : ℚ)
                    - (((ch.tail.map name_str).filter (fun y => (bl y).isSome)).length : ℚ))) :=
              if_pos ⟨hx, hbx⟩
            rw [hpresL x _ hbl2]
            simp
          | some v =>
            rw [hpres0 x v hbx]
            simp
        have hden : (((ch.tail.map name_str).length : ℚ)
            - (((ch.tail.map name_str).filter (fun y => (bl y).isSome)).length : ℚ)) ≠ 0 := by
          refine sub_ne_zero_of_ne ?_
          exact_mod_cast Nat.ne_of_gt hcnt
        have hones0 : ∀ x, bl x = some 1 → out x = some 1 := fun x hx1 => hpres0 x 1 hx1
        refine ⟨out, ?_, hones0, ?_⟩
        · rw [ultra_loop, hff, hgp]
          simp only [hterm, if_true]
          rw [if_neg hdm, if_neg hguard]
          exact hout
        · intro p hp ch2 hch2 lst2 hlast2 hterm2
          rcases List.mem_cons.1 hp with rfl | hp2
          · rw [hch] at hch2
            injection hch2 with h2
            subst h2
            dsimp only
            rw [if_neg hdm, sub_zero]
            constructor
            · rw [List.map_congr_left hfill, sum_fill]
              have hmul : (((ch.tail.map name_str).length : ℚ)
                  - (((ch.tail.map name_str).filter (fun y => (bl y).isSome)).length : ℚ))
                  * ((maxD - ((ch.tail.map name_str).map (fun y => (bl y).getD 0)).sum)
                    / (((ch.tail.map name_str).length : ℚ)
                      - (((ch.tail.map name_str).filter (fun y => (bl y).isSome)).length : ℚ)))
                  = maxD - ((ch.tail.map name_str).map (fun y => (bl y).getD 0)).sum := by
                rw [mul_comm]
                exact div_mul_cancel₀ _ hden
              rw [hmul]
              ring
            · intro hcontra
              exact absurd hcontra hdm
          · have hsum := hsumsL p hp2 ch2 hch2 lst2 hlast2 hterm2
            refine ⟨?_, ?_⟩
            · rw [if_neg (hlow p hp2), sub_zero]
              exact hsum
            · intro hcontra
              exact absurd hcontra (hlow p hp2)

theorem ultra_spec {t : PTree} (hu : UniqNames t) :
    ∃ out, to_ultrametric_tree t = some (apply_bl out t)
      ∧ ∀ nm ∈ t.leaf_labels, ∀ d, (nm, d) ∈ depth_pairs true t →
          ∀ ch, find_chain nm t = some ch →
          (((ch.tail.map name_str).map (fun x => (out x).getD 0)).sum
            = unit_max_depth t - (if d = unit_max_depth t then t.branch_length.getD 0 else 0))
          ∧ (d = unit_max_depth t → ∀ x ∈ ch.tail.map name_str, out x = some 1) := by
  have hperm := sorted_desc_perm (depth_pairs true t)
  have hmem : ∀ p ∈ sorted_desc (depth_pairs true t), p ∈ depth_pairs true t :=
    fun p hp => hperm.subset hp
  have hnodup : ((sorted_desc (depth_pairs true t)).map Prod.fst).Nodup := by
    refine ((hperm.map Prod.fst).nodup_iff).2 ?_
    rw [depth_pairs_keys]
    exact hu
  have hub : ∀ p ∈ sorted_desc (depth_pairs true t), p.2 ≤ unit_max_depth t :=
    fun p hp => list_max_ub (List.mem_map_of_mem Prod.snd hp)
  have hB0 : ∀ p ∈ sorted_desc (depth_pairs true t), ∀ nd, find_first t p.1 = some nd →
      nd.is_terminal = true → nd ≠ t →
      (fun x => if x = t.name_str then some (0 : ℚ) else none) p.1 = none := by
    intro p hp nd hnd htm hnet
    have hroot_ne : ¬(p.1 = t.name_str) := by
      intro heq
      refine hnet ?_
      refine name_str_inj hu (find_first_mem hnd).1 (mem_find_clades_self t) ?_
      rw [(find_first_mem hnd).2, heq]
    show (if p.1 = t.name_str then some (0 : ℚ) else none) = none
    rw [if_neg hroot_ne]
  have hone0 : ∀ x v, (fun x => if x = t.name_str then some (0 : ℚ) else none) x = some v →
      v = 1 ∨ x = t.name_str := by
    intro x v hxv
    by_cases hx : x = t.name_str
    · exact Or.inr hx
    · rw [show (fun x => if x = t.name_str then some (0 : ℚ) else none) x
          = (if x = t.name_str then some (0 : ℚ) else none) from rfl, if_neg hx] at hxv
      cases hxv
  obtain ⟨out, hout, hones, hconc⟩ := ultra_loop_high hu
    (show list_max ((sorted_desc (depth_pairs true t)).map Prod.snd) = unit_max_depth t from rfl)
    (sorted_desc (depth_pairs true t))
    (fun x => if x = t.name_str then some (0 : ℚ) else none)
    hmem hnodup (sorted_desc_pairwise _) hub hB0 hone0
  refine ⟨out, ?_, ?_⟩
  · simp only [to_ultrametric_tree]
    rw [hout]
  · intro nm hnm d hd ch hch
    obtain ⟨hhead, ⟨lst, hlast, hlname⟩, hchain, hsub⟩ := find_chain_spec hch
    obtain ⟨ℓ, hℓ, hℓname⟩ := List.mem_map.1 hnm
    have hℓfc : ℓ ∈ t.find_clades := List.mem_of_mem_filter hℓ
    have hℓterm : ℓ.is_terminal = true := List.of_mem_filter hℓ
    have hlterm : lst.is_terminal = true := by
      have : lst = ℓ := name_str_inj hu (hsub.subset (mem_of_getLast? hlast)) hℓfc
        (by rw [hlname, hℓname])
      rw [this]
      exact hℓterm
    have hpair : (nm, d) ∈ sorted_desc (depth_pairs true t) := hperm.mem_iff.2 hd
    have := hconc (nm, d) hpair ch hch lst hlast hlterm
    exact this

/-- C1 (corrected): when ultrametric normalization runs on a tree with
unique node names and no root branch length, it succeeds, preserves the
topology (names and parent/child structure), and gives every leaf the
same root-to-leaf distance, namely the maximum unit-branch depth
(`max(tree.depths(True).values())`) — not the original real-branch-length
`max_tree_depth`, which is 0 on the automatic trigger path. -/
theorem ultrametric_normalization (t : PTree) (hu : UniqNames t)
    (hroot : t.branch_length = none) :
    ∃ u, to_ultrametric_tree t = some u
      ∧ strip_bl u = strip_bl t
      ∧ (∀ nm ∈ t.leaf_labels, distance u nm = unit_max_depth t)
      ∧ ∀ nm ∈ t.leaf_labels, ∀ nm2 ∈ t.leaf_labels, distance u nm = distance u nm2 := by
  obtain ⟨out, hout, hconc⟩ := ultra_spec hu
  have hdist : ∀ nm ∈ t.leaf_labels, distance (apply_bl out t) nm = unit_max_depth t := by
    intro nm hnm
    have hnm_all : nm ∈ t.all_names := by
      obtain ⟨ℓ, hℓ, rfl⟩ := List.mem_map.1 hnm
      exact List.mem_map_of_mem _ (List.mem_of_mem_filter hℓ)
    obtain ⟨ch, hch⟩ := Option.isSome_iff_exists.1 (find_chain_isSome_iff.2 hnm_all)
    have hnm_keys : nm ∈ (depth_pairs true t).map Prod.fst := by
      rw [depth_pairs_keys]
      exact hnm_all
    obtain ⟨p, hp, hp1⟩ := List.mem_map.1 hnm_keys
    obtain ⟨nm2, d⟩ := p
    dsimp only at hp1
    subst hp1
    have hsum := (hconc nm2 hnm d hp ch hch).1
    rw [distance_apply_bl out t nm2 hch, hsum, hroot]
    simp
  refine ⟨apply_bl out t, hout, strip_bl_apply_bl out t, hdist, ?_⟩
  intro nm h1 nm2 h2
  rw [hdist nm h1, hdist nm2 h2]

/-- C1 witness tree `(A,B)r;` : no branch lengths at all, so
`max_tree_depth` is 0 and `__init__` normalizes automatically. -/
def c1_tree : PTree :=
  .node (some "r") none [.node (some "A") none [], .node (some "B") none []]

theorem ultrametric_normalization_witness :
    UniqNames c1_tree ∧ c1_tree.branch_length = none
    ∧ ∃ u, to_ultrametric_tree c1_tree = some u
        ∧ strip_bl u = strip_bl c1_tree
        ∧ (∀ nm ∈ c1_tree.leaf_labels, distance u nm = unit_max_depth c1_tree)
        ∧ ∀ nm ∈ c1_tree.leaf_labels, ∀ nm2 ∈ c1_tree.leaf_labels,
            distance u nm = distance u nm2 := by
  have hu : UniqNames c1_tree := by
    simp [UniqNames, all_names, find_clades_def, c1_tree, name_str, name]
  exact ⟨hu, rfl, ultrametric_normalization c1_tree hu rfl⟩

/-- The error exits of `_to_ultrametric_tree` in order of occurrence:
`lookup_failed` is the `StopIteration` of `next(tree.find_clades(name))`
when no clade's `name` equals the string key, `path_missing` the
`ValueError` for a missing path, and `zero_division` the
`ZeroDivisionError` of the remainder division. -/
inductive UltraErr where
  | lookup_failed (nm : String)
  | path_missing (nm : String)
  | zero_division

/-- `next(tree.find_clades(name))` with Bio.Phylo's actual string
matcher, which compares `node.name == target`: a clade whose `name` is
`None` never matches any string, although its `str(name)` is `"None"`.
This is the exact lookup of `_to_ultrametric_tree` (line 1080);
`find_chain`/`find_first` above match `str(name)` instead, which agrees
with this matcher exactly on clades that carry a name. -/
def find_first_code (t : PTree) (target : String) : Option PTree :=
  t.find_clades.find? (fun c => c.name = some target)

/-- The `_to_ultrametric_tree` leaf loop with the faithful name lookup
and the three error exits distinguished.  Paths are still resolved per
name, which agrees with the object-identity `tree.get_path(node)` under
the unique-name invariant established by the duplicate check. -/
def ultra_loop_code (t0 : PTree) (maxD : ℚ) :
    List (String × ℚ) → (String → Option ℚ) → Except UltraErr (String → Option ℚ)
  | [], bl => .ok bl
  | (nm, depth) :: rest, bl =>
    match find_first_code t0 nm with
    | none => .error (.lookup_failed nm)
    | some nd =>
      if nd.is_terminal then
        match get_path t0 nm with
        | none => .error (.path_missing nm)
        | some path =>
          let pnames := path.map name_str
          if depth = maxD then
            ultra_loop_code t0 maxD rest (fun x => if x ∈ pnames then some 1 else bl x)
          else
            let bl_sum : ℚ := (pnames.map (fun x => (bl x).getD 0)).sum
            let bl_cnt : Nat := (pnames.filter (fun x => (bl x).isSome)).length
            if pnames.length = bl_cnt then .error .zero_division
            else
              let other := (maxD - bl_sum) / ((pnames.length : ℚ) - (bl_cnt : ℚ))
              ultra_loop_code t0 maxD rest
                (fun x => if x ∈ pnames ∧ bl x = none then some other else bl x)
      else ultra_loop_code t0 maxD rest bl

/-- `_to_ultrametric_tree` with the faithful name lookup. -/
def to_ultrametric_tree_code (t : PTree) : Except UltraErr PTree :=
  let name2depth := sorted_desc (depth_pairs true t)
  let maxD := list_max (name2depth.map Prod.snd)
  match ultra_loop_code t maxD name2depth
      (fun x => if x = t.name_str then some 0 else none) with
  | .error e => .error e
  | .ok blmap => .ok (apply_bl blmap t)

theorem find_first_of_code {t : PTree} (hu : UniqNames t) {nm : String} {nd : PTree}
    (h : find_first_code t nm = some nd) : find_first t nm = some nd := by
  have hmem : nd ∈ t.find_clades := List.mem_of_find?_eq_some h
  have hname : nd.name = some nm := by
    have := List.find?_some h
    simpa using this
  have hstr : nd.name_str = nm := by
    simp [name_str, hname]
  rw [← hstr]
  exact find_first_eq hu hmem

theorem find_first_code_eq {t : PTree} (hu : UniqNames t) (ha : AllNamed t) (nm : String) :
    find_first_code t nm = find_first t nm := by
  cases hc : find_first_code t nm with
  | some nd => exact (find_first_of_code hu hc).symm
  | none =>
    cases hf : find_first t nm with
    | none => rfl
    | some nd =>
      exfalso
      obtain ⟨hmem, hname⟩ := find_first_mem hf
      have hnm : nd.name = some nm := by
        cases hnd : nd.name with
        | none => exact absurd hnd (ha nd hmem)
        | some s =>
          rw [← hname]
          simp [name_str, hnd]
      have := List.find?_eq_none.1 hc nd hmem
      simp [hnm] at this

theorem ultra_loop_code_eq {t : PTree} (hu : UniqNames t) (ha : AllNamed t) (maxD : ℚ) :
    ∀ (rest : List (String × ℚ)) (bl : String → Option ℚ),
      (ultra_loop_code t maxD rest bl).toOption = ultra_loop t maxD rest bl := by
  intro rest
  induction rest with
  | nil => intro bl; rfl
  | cons hd rest ih =>
    intro bl
    obtain ⟨nm, d⟩ := hd
    rw [ultra_loop_code, ultra_loop, find_first_code_eq hu ha]
    cases hff : find_first t nm with
    | none => rfl
    | some nd =>
      cases htm : nd.is_terminal with
      | false =>
        simp only [htm, Bool.false_eq_true, if_false]
        exact ih bl
      | true =>
        simp only [htm, if_true]
        cases hgp : get_path t nm with
        | none => rfl
        | some path =>
          by_cases hdm : d = maxD
          · simp only [if_pos hdm]
            exact ih _
          · simp only [if_neg hdm]
            by_cases hguard : (path.map name_str).length
                = ((path.map name_str).filter (fun x => (bl x).isSome)).length
            · simp only [if_pos hguard]
              rfl
            · simp only [if_neg hguard]
              exact ih _

theorem ultra_loop_code_zero_imp {t : PTree} (hu : UniqNames t) (maxD : ℚ) :
    ∀ (rest : List (String × ℚ)) (bl : String → Option ℚ),
      ultra_loop_code t maxD rest bl = .error .zero_division →
      ultra_loop t maxD rest bl = none := by
  intro rest
  induction rest with
  | nil =>
    intro bl h
    simp [ultra_loop_code] at h
  | cons hd rest ih =>
    intro bl h
    obtain ⟨nm, d⟩ := hd
    rw [ultra_loop_code] at h
    cases hffc : find_first_code t nm with
    | none =>
      rw [hffc] at h
      simp at h
    | some nd =>
      rw [hffc] at h
      have hff : find_first t nm = some nd := find_first_of_code hu hffc
      rw [ultra_loop, hff]
      cases htm : nd.is_terminal with
      | false =>
        simp only [htm, Bool.false_eq_true, if_false] at h ⊢
        exact ih bl h
      | true =>
        simp only [htm, if_true] at h ⊢
        cases hgp : get_path t nm with
        | none =>
          simp [hgp] at h
        | some path =>
          rw [hgp] at h
          by_cases hdm : d = maxD
          · simp only [if_pos hdm] at h ⊢
            exact ih _ h
          · simp only [if_neg hdm] at h ⊢
            by_cases hguard : (path.map name_str).length
                = ((path.map name_str).filter (fun x => (bl x).isSome)).length
            · simp only [if_pos hguard]
            · simp only [if_neg hguard] at h ⊢
              exact ih _ h

/-- C2 (corrected): there is no explicit degenerate-state error, and the
division-by-zero state itself is unreachable on accepted trees (every
leaf processed still has its own terminal clade unfixed, so the divisor
is at least 1) — but normalization does NOT complete without error on
every accepted non-degenerate input: with the faithful name matcher it
fails (StopIteration) on an accepted tree containing an unnamed clade,
because the depth map is keyed by `str(name)` while `find_clades`
matches `name == target`.  On accepted trees whose clades all carry
names, normalization completes without error. -/
theorem ultrametric_error_characterization (t : PTree) (hu : UniqNames t) :
    to_ultrametric_tree_code t ≠ .error .zero_division
    ∧ (AllNamed t → ∃ u, to_ultrametric_tree_code t = .ok u) := by
  obtain ⟨out, hout, -⟩ := ultra_spec hu
  have hne : ultra_loop t (list_max ((sorted_desc (depth_pairs true t)).map Prod.snd))
      (sorted_desc (depth_pairs true t))
      (fun x => if x = t.name_str then some 0 else none) ≠ none := by
    intro h0
    simp only [to_ultrametric_tree] at hout
    rw [h0] at hout
    simp at hout
  constructor
  · intro hcontra
    have hz : ultra_loop_code t
        (list_max ((sorted_desc (depth_pairs true t)).map Prod.snd))
        (sorted_desc (depth_pairs true t))
        (fun x => if x = t.name_str then some 0 else none) = .error .zero_division := by
      simp only [to_ultrametric_tree_code] at hcontra
      cases hres : ultra_loop_code t
          (list_max ((sorted_desc (depth_pairs true t)).map Prod.snd))
          (sorted_desc (depth_pairs true t))
          (fun x => if x = t.name_str then some 0 else none) with
      | ok v =>
        rw [hres] at hcontra
        simp at hcontra
      | error e =>
        rw [hres] at hcontra
        simp at hcontra
        rw [hcontra]
    exact hne (ultra_loop_code_zero_imp hu _ _ _ hz)
  · intro ha
    have heq := ultra_loop_code_eq hu ha
      (list_max ((sorted_desc (depth_pairs true t)).map Prod.snd))
      (sorted_desc (depth_pairs true t))
      (fun x => if x = t.name_str then some 0 else none)
    cases hres : ultra_loop_code t
        (list_max ((sorted_desc (depth_pairs true t)).map Prod.snd))
        (sorted_desc (depth_pairs true t))
        (fun x => if x = t.name_str then some 0 else none) with
    | error e =>
      rw [hres] at heq
      exact absurd heq.symm hne
    | ok v =>
      refine ⟨apply_bl v t, ?_⟩
      simp only [to_ultrametric_tree_code]
      rw [hres]

/-- C2 counterexample tree `(,A)r;` : one unnamed leaf. -/
def c2_tree : PTree :=
  .node (some "r") none [.node none none [], .node (some "A") none []]

/-- C2 counterexample: `(,A)r;` is accepted (its `str(name)` multiset
`r, None, A` has no duplicate, internal renaming leaves it unchanged)
and triggers automatic normalization (`max_tree_depth` is 0), yet the
faithful normalization fails at the very first name lookup — the
`StopIteration` path, not a division error. -/
theorem unnamed_leaf_normalization_error :
    set_uniq_innode_name c2_tree = (c2_tree, [])
    ∧ check_node_name_dup c2_tree = []
    ∧ max_tree_depth c2_tree = 0
    ∧ to_ultrametric_tree_code c2_tree = .error (.lookup_failed "None") := by
  have hu : UniqNames c2_tree := by
    simp [UniqNames, all_names, find_clades_def, c2_tree, name_str, name]
  refine ⟨?_, check_node_name_dup_eq_nil.2 hu, ?_, ?_⟩
  · simp [set_uniq_innode_name, set_uniq_aux, set_uniq_list, c2_tree]
  · norm_num [max_tree_depth, depth_pairs, depth_pairs_from_def, c2_tree, branch_length,
      name_str, name, clades, list_max]
  · have hdp : depth_pairs true c2_tree = [("r", (0 : ℚ)), ("None", 1), ("A", 1)] := by
      norm_num [depth_pairs, depth_pairs_from_def, c2_tree, branch_length, name_str, name,
        clades]
    have hsd : sorted_desc (depth_pairs true c2_tree)
        = [("None", (1 : ℚ)), ("A", 1), ("r", 0)] := by
      rw [hdp]
      norm_num [sorted_desc, insert_desc]
    have hffc : find_first_code c2_tree "None" = none := by
      simp [find_first_code, find_clades_def, c2_tree, name, List.find?]
    simp only [to_ultrametric_tree_code, hsd]
    rw [ultra_loop_code, hffc]

/-- C2 witness tree `(A,B)r;` : all clades named. -/
def c2w_tree : PTree :=
  .node (some "r") none [.node (some "A") none [], .node (some "B") none []]

theorem ultrametric_error_characterization_witness :
    UniqNames c2w_tree
    ∧ AllNamed c2w_tree
    ∧ to_ultrametric_tree_code c2w_tree ≠ .error .zero_division
    ∧ ∃ u, to_ultrametric_tree_code c2w_tree = .ok u := by
  have hu : UniqNames c2w_tree := by
    simp [UniqNames, all_names, find_clades_def, c2w_tree, name_str, name]
  have ha : AllNamed c2w_tree := by
    intro c hc
    simp [find_clades_def, c2w_tree] at hc
    rcases hc with rfl | rfl | rfl <;> simp [name]
  exact ⟨hu, ha, (ultrametric_error_characterization c2w_tree hu).1,
    (ultrametric_error_characterization c2w_tree hu).2 ha⟩

/-- C3 (corrected): the processing order of `_to_ultrametric_tree` is a
stable descending sort of the UNIT-branch depths (`tree.depths(True)`),
not of raw depths computed from the original branch lengths; a leaf whose
unit depth equals the unit maximum gets every clade on its path set to
branch length 1, and every leaf path ends up summing to the unit maximum
(remainders are spread over the still-unfixed path clades). -/
theorem ultrametric_processing_steps (t : PTree) (hu : UniqNames t)
    (hroot : t.branch_length = none) :
    List.Perm (sorted_desc (depth_pairs true t)) (depth_pairs true t)
    ∧ (sorted_desc (depth_pairs true t)).Pairwise (fun a b => b.2 ≤ a.2)
    ∧ ∃ u, to_ultrametric_tree t = some u
        ∧ (∀ nm ∈ t.leaf_labels, ∀ d, (nm, d) ∈ depth_pairs true t →
            d = unit_max_depth t →
            ∀ p, get_path u nm = some p → ∀ e ∈ p, e.branch_length = some 1)
        ∧ ∀ nm ∈ t.leaf_labels, distance u nm = unit_max_depth t := by
  refine ⟨sorted_desc_perm _, sorted_desc_pairwise _, ?_⟩
  obtain ⟨out, hout, hconc⟩ := ultra_spec hu
  refine ⟨apply_bl out t, hout, ?_, ?_⟩
  · intro nm hnm d hd hdm p hpath e he
    have hnm_all : nm ∈ t.all_names := by
      obtain ⟨ℓ, hℓ, rfl⟩ := List.mem_map.1 hnm
      exact List.mem_map_of_mem _ (List.mem_of_mem_filter hℓ)
    obtain ⟨ch, hch⟩ := Option.isSome_iff_exists.1 (find_chain_isSome_iff.2 hnm_all)
    have h1s := (hconc nm hnm d hd ch hch).2 hdm
    have hgp : get_path (apply_bl out t) nm = some (ch.tail.map (apply_bl out)) := by
      rw [get_path, find_chain_apply_bl, hch, Option.map_some', Option.map_some',
        ← List.map_tail]
    rw [hgp] at hpath
    injection hpath with hp2
    subst hp2
    obtain ⟨e0, he0, rfl⟩ := List.mem_map.1 he
    rw [branch_length_apply_bl]
    exact h1s e0.name_str (List.mem_map_of_mem _ he0)
  · intro nm hnm
    have hnm_all : nm ∈ t.all_names := by
      obtain ⟨ℓ, hℓ, rfl⟩ := List.mem_map.1 hnm
      exact List.mem_map_of_mem _ (List.mem_of_mem_filter hℓ)
    obtain ⟨ch, hch⟩ := Option.isSome_iff_exists.1 (find_chain_isSome_iff.2 hnm_all)
    have hnm_keys : nm ∈ (depth_pairs true t).map Prod.fst := by
      rw [depth_pairs_keys]
      exact hnm_all
    obtain ⟨p, hp, hp1⟩ := List.mem_map.1 hnm_keys
    obtain ⟨nm2, d⟩ := p
    dsimp only at hp1
    subst hp1
    have hsum := (hconc nm2 hnm d hp ch hch).1
    rw [distance_apply_bl out t nm2 hch, hsum, hroot]
    simp

/-- C3 witness tree `(A:10,(B:1)I:1)r;`. -/
def c3_tree : PTree :=
  .node (some "r") none [.node (some "A") (some 10) [],
    .node (some "I") (some 1) [.node (some "B") (some 1) []]]

theorem ultrametric_processing_steps_witness :
    UniqNames c3_tree ∧ c3_tree.branch_length = none
    ∧ (List.Perm (sorted_desc (depth_pairs true c3_tree)) (depth_pairs true c3_tree)
      ∧ (sorted_desc (depth_pairs true c3_tree)).Pairwise (fun a b => b.2 ≤ a.2)
      ∧ ∃ u, to_ultrametric_tree c3_tree = some u
          ∧ (∀ nm ∈ c3_tree.leaf_labels, ∀ d, (nm, d) ∈ depth_pairs true c3_tree →
              d = unit_max_depth c3_tree →
              ∀ p, get_path u nm = some p → ∀ e ∈ p, e.branch_length = some 1)
          ∧ ∀ nm ∈ c3_tree.leaf_labels, distance u nm = unit_max_depth c3_tree) := by
  have hu : UniqNames c3_tree := by
    simp [UniqNames, all_names, find_clades_def, c3_tree, name_str, name]
  exact ⟨hu, rfl, ultrametric_processing_steps c3_tree hu rfl⟩

/-- C1 counterexample: on `(A,B)r;` the real-branch-length
`max_tree_depth` is 0, normalization triggers automatically, and the
normalized tree gives every leaf depth 1 — NOT the original
`max_tree_depth` (0) that the claim names. -/
theorem normalized_depth_counterexample :
    max_tree_depth c1_tree = 0
    ∧ "A" ∈ c1_tree.leaf_labels
    ∧ ∃ u, treeviz_init c1_tree false = .ok (u, [])
        ∧ distance u "A" = 1
        ∧ ¬(distance u "A" = max_tree_depth c1_tree) := by
  have hu : UniqNames c1_tree := by
    simp [UniqNames, all_names, find_clades_def, c1_tree, name_str, name]
  have hmtd : max_tree_depth c1_tree = 0 := by
    norm_num [max_tree_depth, depth_pairs, depth_pairs_from_def, c1_tree, branch_length,
      name_str, name, clades, list_max]
  have hlab : "A" ∈ c1_tree.leaf_labels := by
    simp [leaf_labels, get_terminals, find_clades_def, c1_tree, is_terminal, clades,
      name_str, name, List.filter]
  have hdp : depth_pairs true c1_tree = [("r", (0 : ℚ)), ("A", 1), ("B", 1)] := by
    norm_num [depth_pairs, depth_pairs_from_def, c1_tree, branch_length, name_str, name, clades]
  have hsd : sorted_desc [("r", (0 : ℚ)), ("A", 1), ("B", 1)]
      = [("A", (1 : ℚ)), ("B", 1), ("r", 0)] := by
    norm_num [sorted_desc, insert_desc]
  have humd : unit_max_depth c1_tree = 1 := by
    rw [unit_max_depth, hdp, hsd]
    norm_num [list_max]
  have hpair : ("A", (1 : ℚ)) ∈ depth_pairs true c1_tree := by
    rw [hdp]
    simp
  have hch : find_chain "A" c1_tree = some [c1_tree, .node (some "A") none []] := by
    simp [find_chain_def, c1_tree, name_str, name, clades, List.findSome?_cons]
  have hsu : set_uniq_innode_name c1_tree = (c1_tree, []) := by
    simp [set_uniq_innode_name, set_uniq_aux, set_uniq_list, c1_tree]
  have hdupnil : check_node_name_dup c1_tree = [] := check_node_name_dup_eq_nil.2 hu
  obtain ⟨out, hout, hconc⟩ := ultra_spec hu
  have hdistA : distance (apply_bl out c1_tree) "A" = 1 := by
    have hsum := (hconc "A" hlab 1 hpair _ hch).1
    rw [distance_apply_bl out c1_tree "A" hch, hsum, humd]
    norm_num [c1_tree, branch_length]
  refine ⟨hmtd, hlab, apply_bl out c1_tree, ?_, hdistA, ?_⟩
  · simp only [treeviz_init, hsu, hdupnil]
    rw [if_pos (Or.inr hmtd), hout]
  · rw [hdistA, hmtd]
    norm_num

/-- C3 counterexample: in `(A:10,(B:1)I:1)r;` the leaf `A` attains the
original raw maximum depth (10, with a one-edge path), so under the
claim its single path edge would be set to branch length 1; the code
instead sorts by UNIT depths (max 2) and gives `A` depth 2. -/
theorem raw_depth_order_counterexample :
    max_tree_depth c3_tree = 10
    ∧ distance c3_tree "A" = 10
    ∧ (get_path c3_tree "A").map List.length = some 1
    ∧ ∃ u, to_ultrametric_tree c3_tree = some u ∧ distance u "A" = 2 := by
  have hu : UniqNames c3_tree := by
    simp [UniqNames, all_names, find_clades_def, c3_tree, name_str, name]
  have hlab : "A" ∈ c3_tree.leaf_labels := by
    simp [leaf_labels, get_terminals, find_clades_def, c3_tree, is_terminal, clades,
      name_str, name, List.filter]
  have hch : find_chain "A" c3_tree = some [c3_tree, .node (some "A") (some 10) []] := by
    simp [find_chain_def, c3_tree, name_str, name, clades, List.findSome?_cons]
  have hmtd : max_tree_depth c3_tree = 10 := by
    norm_num [max_tree_depth, depth_pairs, depth_pairs_from_def, c3_tree, branch_length,
      name_str, name, clades, list_max]
  have hdp : depth_pairs true c3_tree = [("r", (0 : ℚ)), ("A", 1), ("I", 1), ("B", 2)] := by
    norm_num [depth_pairs, depth_pairs_from_def, c3_tree, branch_length, name_str, name, clades]
  have hsd : sorted_desc [("r", (0 : ℚ)), ("A", 1), ("I", 1), ("B", 2)]
      = [("B", (2 : ℚ)), ("A", 1), ("I", 1), ("r", 0)] := by
    norm_num [sorted_desc, insert_desc]
  have humd : unit_max_depth c3_tree = 2 := by
    rw [unit_max_depth, hdp, hsd]
    norm_num [list_max]
  have hpair : ("A", (1 : ℚ)) ∈ depth_pairs true c3_tree := by
    rw [hdp]
    simp
  obtain ⟨out, hout, hconc⟩ := ultra_spec hu
  have hdistA : distance (apply_bl out c3_tree) "A" = 2 := by
    have hsum := (hconc "A" hlab 1 hpair _ hch).1
    rw [distance_apply_bl out c3_tree "A" hch, hsum, humd]
    norm_num
  refine ⟨hmtd, ?_, ?_, apply_bl out c3_tree, hout, hdistA⟩
  · rw [distance, get_path, hch]
    norm_num [branch_length, name_str, name]
  · rw [get_path, hch]
    rfl

end PTree
